import Mathlib

/-!
Verification development for the Resume Toolkit document pipeline.

Strings are modelled as `List Char`.  The JavaScript string primitives used by
the sources (`split('\n')`, `join('\n')`, `trim()`, `substring`, `toLowerCase`,
the regex `^\s*\*\s` replacement, `\s+` collapsing) are given as executable
definitions below, each one translated from the corresponding source construct
in `src/services/resumeGenerator.ts`, `src/services/pdfExtractor.ts` and the
preview component.  Glyph geometry uses `ℚ` for page coordinates.
-/

deriving instance DecidableEq for Except

namespace ResumeToolkit

/-- Character class of the JavaScript regex `\s` (whitespace), as used by
`trim()`, `\s*` and `\s+` in the sources. -/
def jsWs (c : Char) : Bool :=
  c = ' ' || c = '\t' || c = '\n' || c = '\r' ||
  c = '\x0b' || c = '\x0c' || c = ' ' || c = '﻿' ||
  c = ' ' || (0x2000 ≤ c.val && c.val ≤ 0x200A) ||
  c = ' ' || c = ' ' || c = ' ' || c = ' ' || c = '　'

/-- JavaScript line terminators: the positions after which a multiline `^`
anchor matches. -/
def lineTerm (c : Char) : Bool :=
  c = '\n' || c = '\r' || c = ' ' || c = ' '

/-- JavaScript `str.split('\n')`: always returns at least one piece. -/
def splitNl : List Char → List (List Char)
  | [] => [[]]
  | c :: s =>
    if c = '\n' then [] :: splitNl s
    else
      match splitNl s with
      | l :: ls => (c :: l) :: ls
      | [] => [[c]]

/-- JavaScript `arr.join('\n')`. -/
def joinNl : List (List Char) → List Char
  | [] => []
  | [l] => l
  | l :: ls => l ++ '\n' :: joinNl ls

/-- Leading-whitespace strip, as in the front half of JavaScript `trim()`. -/
def dropLeadWs (s : List Char) : List Char := s.dropWhile jsWs

/-- Trailing-whitespace strip, as in the back half of JavaScript `trim()`. -/
def dropTrailWs (s : List Char) : List Char := (s.reverse.dropWhile jsWs).reverse

/-- JavaScript `str.trim()`. -/
def trimJS (s : List Char) : List Char := dropLeadWs (dropTrailWs s)

/-- JavaScript `str.toLowerCase()` (ASCII part, which is all the sources use). -/
def toLowerJS (s : List Char) : List Char := s.map Char.toLower

/-- JavaScript `str.toUpperCase()` (ASCII part). -/
def toUpperJS (s : List Char) : List Char := s.map Char.toUpper

/-- JavaScript `key.charAt(0).toUpperCase() + key.slice(1)` from the template
renderers. -/
def capitalizeJS : List Char → List Char
  | [] => []
  | c :: s => Char.toUpper c :: s

/-! ### The bullet sanitization pass

`generatePdfResume` (resumeGenerator.ts line 364) runs
`resumeText.replace(/^\s*\*\s/gm, '- ')`.  The scan below mirrors the regex
engine: at every position where the multiline `^` matches (string start, or
just after a line terminator) the pattern `\s*\*\s` is tried; `\s*` is greedy
and can only succeed on the maximal whitespace run, because any shorter run
leaves a whitespace character where the `*` is required.  A match (the
whitespace run, the `*` and one further whitespace character) is replaced by
`"- "` and scanning resumes after the match; otherwise scanning advances one
character.  Fuel makes the recursion structural; `s.length` fuel is always
enough because every step consumes at least one character. -/

/-- Does `\s*\*\s` match at the start of `s`?  After the maximal whitespace
run there must be a `*` and then one more whitespace character. -/
def starMatch (s : List Char) : Bool :=
  match s.dropWhile jsWs with
  | c :: d :: _ => c = '*' && jsWs d
  | _ => false

/-- The whitespace character matched by the final `\s` of `\s*\*\s`. -/
def starSep (s : List Char) : Char :=
  match s.dropWhile jsWs with
  | _ :: d :: _ => d
  | _ => ' '

/-- The remainder of the string after a `\s*\*\s` match. -/
def starTail (s : List Char) : List Char := (s.dropWhile jsWs).drop 2

/-- Fuelled scan implementing `replace(/^\s*\*\s/gm, '- ')`.  The Boolean is
true exactly when the current position is a multiline `^` anchor. -/
def sanitizeF : Nat → Bool → List Char → List Char
  | 0, _, s => s
  | _ + 1, _, [] => []
  | n + 1, b, c :: s =>
    if b && starMatch (c :: s) then
      '-' :: ' ' :: sanitizeF n (lineTerm (starSep (c :: s))) (starTail (c :: s))
    else
      c :: sanitizeF n (lineTerm c) s

/-- The sanitization pass of `generatePdfResume`:
`resumeText.replace(/^\s*\*\s/gm, '- ')`. -/
def sanitizeBullets (s : List Char) : List Char := sanitizeF s.length true s

/-- Fuel-insensitive view of the scan, used by all lemmas. -/
def sanA (b : Bool) (s : List Char) : List Char := sanitizeF s.length b s

/-! ### Structural split of the resume Markdown

`parseResumeStructure` (resumeGenerator.ts lines 181-198) splits the raw
Markdown into a two-line header and a title-keyed mapping of sections.  The
split `rest.split(/^(?=##\s)/m)` cuts at every position where the multiline
`^` anchor matches — after any ECMAScript LineTerminator (`\n`, `\r`,
U+2028, U+2029; the same set `lineTerm` encodes for the sanitizer) — and the
zero-width lookahead sees `##` followed by a `\s` character.  Per the
ECMAScript split algorithm, a zero-width match at index 0 is skipped (no
leading empty chunk), each chunk keeps the terminator that precedes the next
boundary, and the remainder after the last boundary is the final chunk.  The
scan below walks the string once, carrying whether the previous character
was a LineTerminator. -/

/-- Does the lookahead `(?=##\s)` match at the start of `s`? -/
def headAnchor (s : List Char) : Bool :=
  match s with
  | c1 :: c2 :: d :: _ => c1 = '#' && c2 = '#' && jsWs d
  | _ => false

/-- The scan implementing `rest.split(/^(?=##\s)/m)`: cut before the current
character exactly when the previous character was a LineTerminator and the
lookahead matches.  `prevLT` is false at index 0 because the ECMAScript
split algorithm skips a zero-width match there. -/
def chunkSecs (prevLT : Bool) (cur : List Char) : List Char → List (List Char)
  | [] => [cur]
  | c :: s =>
    if prevLT && headAnchor (c :: s) then
      cur :: chunkSecs (lineTerm c) [c] s
    else
      chunkSecs (lineTerm c) (cur ++ [c]) s

/-- Does the scan starting in state `prevLT` find no anchored `##\s` split
point anywhere in `s`?  Used to say that a section body introduces no
further section boundary. -/
def hasNoAnchor (prevLT : Bool) : List Char → Bool
  | [] => true
  | c :: s => !(prevLT && headAnchor (c :: s)) && hasNoAnchor (lineTerm c) s

/-- The section entry produced from one chunk of the split, or `none` for the
chunks skipped by the `!part.trim()` guard (resumeGenerator.ts lines 189-195). -/
def sectionOfChunk (part : List Char) : Option (List Char × List Char) :=
  if trimJS part = [] then none
  else
    let sectionLines := splitNl (trimJS part)
    let title := toLowerJS (trimJS ((sectionLines.headD []).drop 3))
    let content := joinNl (sectionLines.drop 1)
    some (title, content)

/-- Result of `parseResumeStructure`: the first two input lines verbatim, and
the section assignments in the order the chunks are visited.  The JS object
`sections[title] = content` overwrites, so a lookup must take the LAST
assignment for a key; see `sectionsGet`. -/
structure ParsedResume where
  header : List (List Char)
  sections : List (List Char × List Char)
  deriving DecidableEq

/-- `parseResumeStructure` from resumeGenerator.ts lines 181-198. -/
def parseResumeStructure (markdown : List Char) : ParsedResume :=
  let lines := splitNl markdown
  let header := lines.take 2
  let rest := joinNl (lines.drop 2)
  let chunks := chunkSecs false [] rest
  let sections := chunks.foldl
    (fun acc part =>
      match sectionOfChunk part with
      | none => acc
      | some e => acc ++ [e]) []
  ⟨header, sections⟩

/-- Lookup in the section mapping with JS object-assignment semantics: the
last write for a key wins. -/
def sectionsGet (secs : List (List Char × List Char)) (k : List Char) :
    Option (List Char) :=
  (secs.reverse.find? (fun p => p.1 = k)).map (fun p => p.2)

/-- Result of `parseMarkdownForPreview` from the preview component: header
name and contact are single strings, defaulted to `""` via `|| ''`, and the
sections keep their order, case and duplicates. -/
structure PreviewParse where
  headerName : List Char
  headerContact : List Char
  sections : List (List Char × List Char)
  deriving DecidableEq

/-- JavaScript `x || ''` on an optional string. -/
def jsOrEmpty : Option (List Char) → List Char
  | none => []
  | some s => s

/-- `parseMarkdownForPreview` from the preview component (lines 57-75 of the
file containing `ResumePreview`). -/
def parseMarkdownForPreview (markdown : List Char) : PreviewParse :=
  if markdown = [] then ⟨[], [], []⟩
  else
    let lines := splitNl markdown
    let headerName := jsOrEmpty (lines.get? 0)
    let headerContact := jsOrEmpty (lines.get? 1)
    let rest := joinNl (lines.drop 2)
    let chunks := chunkSecs false [] rest
    let sections := chunks.foldl
      (fun acc part =>
        if trimJS part = [] then acc
        else
          let sectionLines := splitNl (trimJS part)
          let title := trimJS ((sectionLines.headD []).drop 3)
          let content := joinNl (sectionLines.drop 1)
          acc ++ [(title, content)]) []
    ⟨headerName, headerContact, sections⟩

/-! ### Glyph line assembly

`extractTextFromPdf` (pdfExtractor.ts lines 24-76) sorts the page's glyph
runs with a comparator (same-line tolerance 4, then ascending x) and folds
them into lines, starting a new line when the vertical jump exceeds
`0.7 × item.height` and otherwise inserting a space exactly when the
horizontal gap exceeds `0.25 × charWidth`.  Geometry is modelled with `ℚ`.
JavaScript `Array.prototype.sort` is stable; a stable insertion sort models
it (for the inputs in the theorems below the comparator is a total preorder,
where every stable sort agrees with the engine's). -/

/-- One positioned glyph run: `item.str`, `item.transform[4]` (x),
`item.transform[5]` (y), `item.width`, `item.height`. -/
structure GlyphRun where
  str : List Char
  x : ℚ
  y : ℚ
  width : ℚ
  height : ℚ
  deriving DecidableEq

/-- The sort comparator of pdfExtractor.ts lines 26-37 (negative means `a`
comes first). -/
def runCompare (a b : GlyphRun) : ℚ :=
  if |a.y - b.y| > 4 then b.y - a.y else a.x - b.x

/-- Stable insertion of `a` after every already-placed run not strictly
after it. -/
def insertRun (a : GlyphRun) : List GlyphRun → List GlyphRun
  | [] => [a]
  | b :: bs => if runCompare a b < 0 then a :: b :: bs else b :: insertRun a bs

/-- The stable sort `textContent.items.slice().sort(...)`. -/
def sortRuns (items : List GlyphRun) : List GlyphRun :=
  items.foldl (fun acc a => insertRun a acc) []

/-- `charWidth` from pdfExtractor.ts line 60. -/
def charWidth (item : GlyphRun) : ℚ :=
  if item.str.length > 0 then item.width / item.str.length else item.width

/-- State of the line-assembly loop: finished lines, the line being built,
`lastY`, `lastX_end`. -/
structure AsmState where
  lines : List (List Char)
  cur : List Char
  lastY : ℚ
  lastXend : ℚ
  deriving DecidableEq

/-- One iteration of the loop at pdfExtractor.ts lines 45-70. -/
def asmStep (st : AsmState) (item : GlyphRun) : AsmState :=
  let yTolerance := item.height * (7/10)
  if |item.y - st.lastY| > yTolerance then
    ⟨st.lines ++ [st.cur], item.str, item.y, item.x + item.width⟩
  else
    let cw := charWidth item
    let xGap := item.x - st.lastXend
    let cur' := if xGap > cw * (1/4) then st.cur ++ ' ' :: item.str
                else st.cur ++ item.str
    ⟨st.lines, cur', item.y, item.x + item.width⟩

/-- The assembled raw lines of one page (pdfExtractor.ts lines 39-72). -/
def assembleLines : List GlyphRun → List (List Char)
  | [] => []
  | r :: rest =>
    let fin := rest.foldl asmStep ⟨[], r.str, r.y, r.x + r.width⟩
    fin.lines ++ [fin.cur]

/-- JavaScript `line.replace(/\s+/g, ' ')`: collapse each maximal whitespace
run to one space.  The Boolean records whether the previous character was
whitespace. -/
def collapseWsA : Bool → List Char → List Char
  | _, [] => []
  | prevWs, c :: s =>
    if jsWs c then
      if prevWs then collapseWsA true s else ' ' :: collapseWsA true s
    else c :: collapseWsA false s

/-- `line.replace(/\s+/g, ' ').trim()` from pdfExtractor.ts line 75. -/
def cleanLine (l : List Char) : List Char := trimJS (collapseWsA false l)

/-- The text extracted from one page's glyph runs (pdfExtractor.ts lines
19-76): empty pages contribute `""`, other pages sort, assemble, clean and
join their lines. -/
def extractPageText (items : List GlyphRun) : List Char :=
  if items = [] then []
  else joinNl ((assembleLines (sortRuns items)).map cleanLine)

/-- Spec-side reference: the plain concatenation of the runs' strings in the
order given, used to state the "concatenated in ascending-x order" property
of the spec (the run list is sorted first). -/
def concatRunStrs : List GlyphRun → List Char
  | [] => []
  | r :: rs => r.str ++ concatRunStrs rs

/-! ### The PDF render pipeline

`PdfRenderer` (resumeGenerator.ts lines 38-178), the four template renderers
(lines 200-357) and `generatePdfResume` (lines 359-394).  The ambient CDN
globals are explicit parameters: `marked.lexer` is a `Lexer` producing a
token tree, `doc.getTextWidth` is a `WidthFn` depending on the active font
state.  Both may fail (`Except`), modelling the exceptions the source's
`try/catch` guards against.  The jsPDF document is modelled as the list of
draw commands issued to it plus the mutable font/draw state. -/

/-- A token of the markdown lexer output, shaped like the `marked` token tree
the renderer consumes: `type`, nested `tokens`/`items`, `text`.  `other`
covers any further token type, carrying its `text` field when that is a
string. -/
inductive MTok where
  | mtext (text : List Char)
  | strong (tokens : List MTok)
  | em (tokens : List MTok)
  | paragraph (tokens : List MTok)
  | mlist (items : List MTok)
  | listItem (tokens : List MTok)
  | space
  | heading
  | other (text : Option (List Char))

/-- Font state carried by the jsPDF document: family, style, size, text
color. -/
structure FontSt where
  family : List Char
  style : List Char
  size : ℚ
  color : List Char
  deriving DecidableEq

/-- One drawing command issued to the jsPDF document. -/
inductive PdfCmd where
  | text (s : List Char) (x y : ℚ) (center : Bool) (font : FontSt)
  | line (x1 y1 x2 y2 : ℚ) (lineWidth : ℚ) (drawColor : List Char)
  | addPage
  deriving DecidableEq

/-- The renderer state: `this.cursorY`, `this.pageNumber`, the document's
font and draw state, and the commands issued so far. -/
structure RState where
  cursorY : ℚ
  pageNumber : Nat
  font : FontSt
  drawColor : List Char
  lineWidth : ℚ
  cmds : List PdfCmd
  deriving DecidableEq

/-- Errors thrown by the external collaborators (lexer, font metrics,
invalid draw arguments). -/
abbrev Err : Type := List Char

/-- The `marked.lexer` collaborator. -/
abbrev Lexer : Type := List Char → Except Err (List MTok)

/-- The `doc.getTextWidth` collaborator; it measures with the document's
current font state. -/
abbrev WidthFn : Type := FontSt → List Char → Except Err ℚ

namespace PAGE

def WIDTH : ℚ := 210
def HEIGHT : ℚ := 297
def MARGIN : ℚ := 20
def LINE_HEIGHT : ℚ := 5

end PAGE

def CONTENT_WIDTH : ℚ := PAGE.WIDTH - PAGE.MARGIN * 2

namespace FONT_SIZES

def headerTitle : ℚ := 21
def sectionTitle : ℚ := 15
def body : ℚ := 108/10
def contact : ℚ := 96/10

end FONT_SIZES

namespace COLORS

def primary : List Char := "#1F2937".toList
def secondary : List Char := "#4B5563".toList
def accent : List Char := "#3B82F6".toList
def accentLight : List Char := "#60a5fa".toList
def accentLighter : List Char := "#93c5fd".toList
def grayText : List Char := "#9ca3af".toList
def border : List Char := "#4b5563".toList
def borderDark : List Char := "#374151".toList

end COLORS

/-- `doc.setFont(family, style)`. -/
def setFont (st : RState) (family style : List Char) : RState :=
  { st with font := { st.font with family := family, style := style } }

/-- `doc.setFontSize(size)`. -/
def setFontSize (st : RState) (size : ℚ) : RState :=
  { st with font := { st.font with size := size } }

/-- `doc.setTextColor(color)`. -/
def setTextColor (st : RState) (color : List Char) : RState :=
  { st with font := { st.font with color := color } }

/-- `doc.setDrawColor(color)`. -/
def setDrawColor (st : RState) (color : List Char) : RState :=
  { st with drawColor := color }

/-- `doc.setLineWidth(w)`. -/
def setLineWidth (st : RState) (w : ℚ) : RState :=
  { st with lineWidth := w }

/-- `doc.text(s, x, y[, align center])`. -/
def drawText (st : RState) (s : List Char) (x y : ℚ) (center : Bool) : RState :=
  { st with cmds := st.cmds ++ [PdfCmd.text s x y center st.font] }

/-- `doc.line(x1, y1, x2, y2)`. -/
def drawLine (st : RState) (x1 y1 x2 y2 : ℚ) : RState :=
  { st with cmds := st.cmds ++ [PdfCmd.line x1 y1 x2 y2 st.lineWidth st.drawColor] }

/-- `_ensurePage` (resumeGenerator.ts lines 52-58). -/
def ensurePage (st : RState) : RState :=
  if st.cursorY > PAGE.HEIGHT - PAGE.MARGIN then
    { st with cmds := st.cmds ++ [PdfCmd.addPage],
              pageNumber := st.pageNumber + 1,
              cursorY := PAGE.MARGIN }
  else st

/-- jsPDF `doc.text` throws when handed a non-string (an out-of-range header
access yields `undefined`). -/
def textArg : Option (List Char) → Except Err (List Char)
  | some s => Except.ok s
  | none => Except.error ("Invalid text argument".toList)

/-- JavaScript `text.split(' ')` (single-space separator). -/
def splitSp : List Char → List (List Char)
  | [] => [[]]
  | c :: s =>
    if c = ' ' then [] :: splitSp s
    else
      match splitSp s with
      | l :: ls => (c :: l) :: ls
      | [] => [[c]]

/-- The word list pushed by `flatten` for one text token: empty strings are
skipped (`if (word)`). -/
def wordsOf (text : List Char) : List (List Char) :=
  (splitSp text).filter (fun w => w ≠ [])

mutual

/-- The `flatten` closure of `_renderInlineTokens` (lines 70-84) on one
token: bold/italic containers recurse with the new style, text tokens yield
their words with the current style, anything else contributes nothing. -/
def flattenTok (style : List Char) (tok : MTok) :
    List (List Char × List Char) :=
  match tok with
  | .strong ts => flattenToks ("bold".toList) ts
  | .em ts => flattenToks ("italic".toList) ts
  | .mtext text => (wordsOf text).map (fun w => (w, style))
  | _ => []
termination_by structural tok

/-- `flatten` over a token list, preserving reading order. -/
def flattenToks (style : List Char) (ts : List MTok) :
    List (List Char × List Char) :=
  match ts with
  | [] => []
  | t :: rest => flattenTok style t ++ flattenToks style rest
termination_by structural ts

end

/-- `_renderInlineTokens` (resumeGenerator.ts lines 64-106): flatten, then
draw word by word with page breaks and word wrap; every word is measured and
drawn with a trailing space. -/
def renderInline (wf : WidthFn) (tokens : List MTok)
    (x y maxWidth : ℚ) (st : RState) : Except Err RState := do
  let st := { st with cursorY := y }
  let words := flattenToks ("normal".toList) tokens
  let r ← words.foldlM
    (fun (p : ℚ × RState) w => do
      let (cursorX, st) := p
      let st := ensurePage st
      let fontStyle :=
        if w.2 = "normal".toList then "normal".toList
        else if w.2 = "bold".toList then "bold".toList
        else "italic".toList
      let st := setFont st ("helvetica".toList) fontStyle
      let textToRender := w.1 ++ [' ']
      let wordWidth ← wf st.font textToRender
      let (cursorX, st) :=
        if cursorX + wordWidth > x + maxWidth then
          (x, { st with cursorY := st.cursorY + PAGE.LINE_HEIGHT })
        else (cursorX, st)
      let st := drawText st textToRender cursorX st.cursorY false
      pure (cursorX + wordWidth, st))
    (x, st)
  pure { r.2 with cursorY := r.2.cursorY + PAGE.LINE_HEIGHT }

mutual

/-- One step of the `renderTokens` closure of `renderMarkdown`
(resumeGenerator.ts lines 119-173), at list nesting `level`: the switch on
`token.type`.  Headings are skipped (template logic draws section titles);
lists recurse at `level + 1`; list items draw a bullet and render their
paragraph or text contents inline; other tokens with a string `text` render
that text as a plain inline run. -/
def renderTok (wf : WidthFn) (level : Nat) (x maxWidth : ℚ) (tok : MTok)
    (st : RState) : Except Err RState :=
  let st := ensurePage st
  let indent := x + level * 5
  let effectiveMaxWidth := maxWidth - level * 5
  match tok with
  | .heading => pure st
  | .paragraph ts => do
      let st := setTextColor (setFontSize (setFont st ("helvetica".toList)
        ("normal".toList)) FONT_SIZES.body) COLORS.primary
      let st ← renderInline wf ts x st.cursorY maxWidth st
      pure { st with cursorY := st.cursorY + 1 }
  | .mlist items => do
      let st ← renderToks wf (level + 1) x maxWidth items st
      pure (if level = 0 then { st with cursorY := st.cursorY + 3 } else st)
  | .listItem ts => do
      let st := setTextColor (setFontSize st FONT_SIZES.body) COLORS.primary
      let st := drawText st ['•'] indent st.cursorY false
      let st ← ts.foldlM
        (fun s ic =>
          match ic with
          | .paragraph ts' =>
              renderInline wf ts' (indent + 4) s.cursorY
                (effectiveMaxWidth - 4) s
          | .mtext text =>
              renderInline wf [MTok.mtext text] (indent + 4) s.cursorY
                (effectiveMaxWidth - 4) s
          | _ => pure s)
        st
      pure { st with cursorY := st.cursorY - 1 }
  | .space => pure st
  | .mtext text => do
      let st := setFontSize (setFont st ("helvetica".toList)
        ("normal".toList)) FONT_SIZES.body
      renderInline wf [MTok.mtext text] x st.cursorY maxWidth st
  | .strong _ => pure st
  | .em _ => pure st
  | .other otext =>
      match otext with
      | some text => do
          let st := setFontSize (setFont st ("helvetica".toList)
            ("normal".toList)) FONT_SIZES.body
          renderInline wf [MTok.mtext text] x st.cursorY maxWidth st
      | none => pure st
termination_by structural tok

/-- `renderTokens` over a token list (the `tokens.forEach` loop). -/
def renderToks (wf : WidthFn) (level : Nat) (x maxWidth : ℚ)
    (toks : List MTok) (st : RState) : Except Err RState :=
  match toks with
  | [] => pure st
  | t :: rest => do
      let st ← renderTok wf level x maxWidth t st
      renderToks wf level x maxWidth rest st
termination_by structural toks

end

/-- `renderMarkdown` (resumeGenerator.ts lines 111-177); the `startY`
parameter is never supplied by the template callers and is omitted. -/
def renderMarkdown (lexer : Lexer) (wf : WidthFn) (markdown : List Char)
    (x maxWidth : ℚ) (st : RState) : Except Err RState := do
  let tokens ← lexer markdown
  renderToks wf 0 x maxWidth tokens st

/-- Initial document/renderer state at the start of a template render: the
cursor sits at the top margin of page 1, and `generatePdfResume` has already
issued `doc.setFont('helvetica', 'normal')`; size 16 and black are the jsPDF
defaults, never observed before a template sets its own. -/
def initState : RState :=
  { cursorY := PAGE.MARGIN
    pageNumber := 1
    font := { family := "helvetica".toList, style := "normal".toList,
              size := 16, color := "#000000".toList }
    drawColor := "#000000".toList
    lineWidth := 1/5
    cmds := [] }

/-- Section body lookup with JS truthiness: `if (data.sections[key])` skips
both a missing key and an empty string body. -/
def truthySection (secs : List (List Char × List Char)) (key : List Char) :
    Option (List Char) :=
  match sectionsGet secs key with
  | none => none
  | some content => if content = [] then none else some content

/-- One `sectionOrder.forEach` step of `renderClassicTemplate`
(resumeGenerator.ts lines 218-234). -/
def classicSection (lexer : Lexer) (wf : WidthFn)
    (secs : List (List Char × List Char)) (st : RState) (key : List Char) :
    Except Err RState :=
  match truthySection secs key with
  | none => pure st
  | some content => do
      let title := capitalizeJS key
      let st := setTextColor (setFontSize (setFont st ("helvetica".toList)
        ("bold".toList)) FONT_SIZES.sectionTitle) COLORS.accentLight
      let st := drawText st title PAGE.MARGIN st.cursorY false
      let st := { st with cursorY := st.cursorY + 2 }
      let st := setLineWidth (setDrawColor st COLORS.border) (1/5)
      let st := drawLine st PAGE.MARGIN st.cursorY (PAGE.WIDTH - PAGE.MARGIN)
        st.cursorY
      let st := { st with cursorY := st.cursorY + 8 }
      let st ← renderMarkdown lexer wf content PAGE.MARGIN CONTENT_WIDTH st
      pure { st with cursorY := st.cursorY + 4 }

/-- `renderClassicTemplate` (resumeGenerator.ts lines 200-235). -/
def renderClassicTemplate (lexer : Lexer) (wf : WidthFn)
    (data : ParsedResume) : Except Err RState := do
  let st := initState
  let st := setTextColor (setFontSize (setFont st ("helvetica".toList)
    ("bold".toList)) FONT_SIZES.headerTitle) COLORS.primary
  let h0 ← textArg (data.header.get? 0)
  let st := drawText st h0 (PAGE.WIDTH / 2) st.cursorY true
  let st := { st with cursorY := st.cursorY + 8 }
  let st := setTextColor (setFontSize (setFont st ("helvetica".toList)
    ("normal".toList)) FONT_SIZES.contact) COLORS.grayText
  let h1 ← textArg (data.header.get? 1)
  let st := drawText st h1 (PAGE.WIDTH / 2) st.cursorY true
  let st := { st with cursorY := st.cursorY + 12 }
  (["summary", "skills", "experience", "projects",
    "education"].map String.toList).foldlM
    (classicSection lexer wf data.sections) st

/-- One `sectionOrder.forEach` step of `renderProfessionalTemplate`
(resumeGenerator.ts lines 255-271). -/
def professionalSection (lexer : Lexer) (wf : WidthFn)
    (secs : List (List Char × List Char)) (st : RState) (key : List Char) :
    Except Err RState :=
  match truthySection secs key with
  | none => pure st
  | some content => do
      let title := toUpperJS (capitalizeJS key)
      let st := setTextColor (setFontSize (setFont st ("helvetica".toList)
        ("bold".toList)) 12) COLORS.grayText
      let st := drawText st title PAGE.MARGIN st.cursorY false
      let st := { st with cursorY := st.cursorY + 2 }
      let st := setLineWidth (setDrawColor st COLORS.borderDark) (1/2)
      let st := drawLine st PAGE.MARGIN st.cursorY (PAGE.WIDTH - PAGE.MARGIN)
        st.cursorY
      let st := { st with cursorY := st.cursorY + 8 }
      let st ← renderMarkdown lexer wf content PAGE.MARGIN CONTENT_WIDTH st
      pure { st with cursorY := st.cursorY + 4 }

/-- `renderProfessionalTemplate` (resumeGenerator.ts lines 237-272). -/
def renderProfessionalTemplate (lexer : Lexer) (wf : WidthFn)
    (data : ParsedResume) : Except Err RState := do
  let st := initState
  let st := setTextColor (setFontSize (setFont st ("helvetica".toList)
    ("bold".toList)) FONT_SIZES.headerTitle) COLORS.primary
  let h0 ← textArg (data.header.get? 0)
  let st := drawText st h0 PAGE.MARGIN st.cursorY false
  let st := { st with cursorY := st.cursorY + 8 }
  let st := setTextColor (setFontSize (setFont st ("helvetica".toList)
    ("normal".toList)) FONT_SIZES.contact) COLORS.grayText
  let h1 ← textArg (data.header.get? 1)
  let st := drawText st h1 PAGE.MARGIN st.cursorY false
  let st := { st with cursorY := st.cursorY + 10 }
  (["summary", "skills", "experience", "projects",
    "education"].map String.toList).foldlM
    (professionalSection lexer wf data.sections) st

/-- One `sectionOrder.forEach` step of `renderTechnicalTemplate`
(resumeGenerator.ts lines 292-308): the title is drawn after a `">> "`
prefix glyph whose width is measured with the current font. -/
def technicalSection (lexer : Lexer) (wf : WidthFn)
    (secs : List (List Char × List Char)) (st : RState) (key : List Char) :
    Except Err RState :=
  match truthySection secs key with
  | none => pure st
  | some content => do
      let title := capitalizeJS key
      let st := setTextColor (setFontSize (setFont st ("helvetica".toList)
        ("bold".toList)) (132/10)) COLORS.accent
      let st := drawText st (">> ".toList) PAGE.MARGIN st.cursorY false
      let st := setTextColor st COLORS.accent
      let w ← wf st.font (">> ".toList)
      let st := drawText st title (PAGE.MARGIN + w) st.cursorY false
      let st := { st with cursorY := st.cursorY + 8 }
      let st ← renderMarkdown lexer wf content PAGE.MARGIN CONTENT_WIDTH st
      pure { st with cursorY := st.cursorY + 4 }

/-- `renderTechnicalTemplate` (resumeGenerator.ts lines 274-309): monospaced
header, then sections in the technical order (projects before experience). -/
def renderTechnicalTemplate (lexer : Lexer) (wf : WidthFn)
    (data : ParsedResume) : Except Err RState := do
  let st := initState
  let st := setTextColor (setFontSize (setFont st ("courier".toList)
    ("bold".toList)) FONT_SIZES.headerTitle) COLORS.primary
  let h0 ← textArg (data.header.get? 0)
  let st := drawText st h0 PAGE.MARGIN st.cursorY false
  let st := { st with cursorY := st.cursorY + 8 }
  let st := setTextColor (setFontSize (setFont st ("courier".toList)
    ("normal".toList)) FONT_SIZES.contact) COLORS.grayText
  let h1 ← textArg (data.header.get? 1)
  let st := drawText st h1 PAGE.MARGIN st.cursorY false
  let st := { st with cursorY := st.cursorY + 12 }
  (["summary", "skills", "projects", "experience",
    "education"].map String.toList).foldlM
    (technicalSection lexer wf data.sections) st

/-- One `sectionOrder.forEach` step of `renderModernTemplate`
(resumeGenerator.ts lines 334-356): a vertical accent bar beside the title. -/
def modernSection (lexer : Lexer) (wf : WidthFn)
    (secs : List (List Char × List Char)) (st : RState) (key : List Char) :
    Except Err RState :=
  match truthySection secs key with
  | none => pure st
  | some content => do
      let title := capitalizeJS key
      let st := { st with cursorY := st.cursorY + 4 }
      let st := setTextColor (setFontSize (setFont st ("helvetica".toList)
        ("bold".toList)) (132/10)) COLORS.accentLighter
      let st := setLineWidth (setDrawColor st COLORS.accent) 1
      let st := drawLine st PAGE.MARGIN (st.cursorY - 4) PAGE.MARGIN
        (st.cursorY + 4)
      let st := drawText st title (PAGE.MARGIN + 3) st.cursorY false
      let st := { st with cursorY := st.cursorY + 8 }
      let st ← renderMarkdown lexer wf content PAGE.MARGIN CONTENT_WIDTH st
      pure { st with cursorY := st.cursorY + 4 }

/-- `renderModernTemplate` (resumeGenerator.ts lines 311-357). -/
def renderModernTemplate (lexer : Lexer) (wf : WidthFn)
    (data : ParsedResume) : Except Err RState := do
  let st := initState
  let st := setTextColor (setFontSize (setFont st ("helvetica".toList)
    ("bold".toList)) FONT_SIZES.headerTitle) COLORS.primary
  let h0 ← textArg (data.header.get? 0)
  let st := drawText st h0 PAGE.MARGIN st.cursorY false
  let st := { st with cursorY := st.cursorY + 8 }
  let st := setTextColor (setFontSize (setFont st ("helvetica".toList)
    ("normal".toList)) FONT_SIZES.contact) COLORS.grayText
  let h1 ← textArg (data.header.get? 1)
  let st := drawText st h1 PAGE.MARGIN st.cursorY false
  let st := { st with cursorY := st.cursorY + 8 }
  let st := setLineWidth (setDrawColor st COLORS.border) (1/5)
  let st := drawLine st PAGE.MARGIN st.cursorY (PAGE.WIDTH - PAGE.MARGIN)
    st.cursorY
  let st := { st with cursorY := st.cursorY + 10 }
  (["summary", "experience", "projects", "skills",
    "education"].map String.toList).foldlM
    (modernSection lexer wf data.sections) st

/-- The template identifiers of the application. -/
inductive TemplateId where
  | classic
  | professional
  | technical
  | modern
  deriving DecidableEq

/-- The `sectionOrder` list of each template renderer. -/
def sectionOrderOf : TemplateId → List (List Char)
  | .classic => ["summary", "skills", "experience", "projects",
      "education"].map String.toList
  | .professional => ["summary", "skills", "experience", "projects",
      "education"].map String.toList
  | .technical => ["summary", "skills", "projects", "experience",
      "education"].map String.toList
  | .modern => ["summary", "experience", "projects", "skills",
      "education"].map String.toList

/-- The `switch (templateId)` dispatch of `generatePdfResume`
(resumeGenerator.ts lines 372-386); the `default` case of the switch also
lands on the classic template, which the closed `TemplateId` enumeration
makes the `classic` arm here. -/
def renderTemplate (lexer : Lexer) (wf : WidthFn) (templateId : TemplateId)
    (data : ParsedResume) : Except Err RState :=
  match templateId with
  | .professional => renderProfessionalTemplate lexer wf data
  | .technical => renderTechnicalTemplate lexer wf data
  | .modern => renderModernTemplate lexer wf data
  | .classic => renderClassicTemplate lexer wf data

/-- The body of `generatePdfResume`'s `try` block up to `doc.save`
(resumeGenerator.ts lines 361-386): sanitize, parse, dispatch on the
template; every failure of a collaborator surfaces as an `Except.error`. -/
def generatePdfDoc (lexer : Lexer) (wf : WidthFn) (resumeText : List Char)
    (templateId : TemplateId) : Except Err RState :=
  let sanitizedResumeText := sanitizeBullets resumeText
  let parsedData := parseResumeStructure sanitizedResumeText
  renderTemplate lexer wf templateId parsedData

/-- Spec-side reference: the same section mapping with every assignment for
one key removed, used to state that templates never read sections outside
their `sectionOrder`. -/
def removeSection (key : List Char) (secs : List (List Char × List Char)) :
    List (List Char × List Char) :=
  secs.filter (fun p => p.1 ≠ key)

/-- Observation of a finished render: the final page count. -/
def pageCountOf (st : RState) : Nat := st.pageNumber

/-- Observation of a finished render: the drawn text runs with their
absolute coordinates, in order. -/
def wordDraws (st : RState) : List (List Char × ℚ × ℚ) :=
  st.cmds.filterMap (fun c =>
    match c with
    | PdfCmd.text s x y _ _ => some (s, x, y)
    | _ => none)

/-- The externally observable outcomes of one `generatePdfResume` call:
either the finished document is saved under the requested filename, or the
user sees the error alert. -/
inductive PdfEffect where
  | saveFile (filename : List Char) (doc : List PdfCmd)
  | alertError
  deriving DecidableEq

/-- `generatePdfResume` (resumeGenerator.ts lines 359-394): the `try/catch`.
On success the drawn document is saved; any exception reaches the catch
block, which only alerts — nothing is saved. -/
def generatePdfResume (lexer : Lexer) (wf : WidthFn) (resumeText : List Char)
    (templateId : TemplateId) (filename : List Char) : List PdfEffect :=
  match generatePdfDoc lexer wf resumeText templateId with
  | Except.ok st => [PdfEffect.saveFile filename st.cmds]
  | Except.error _ => [PdfEffect.alertError]

/-! ### Shared lemmas about the string primitives -/

theorem splitNl_ne_nil (s : List Char) : splitNl s ≠ [] := by
  induction s with
  | nil => simp [splitNl]
  | cons c s ih =>
    simp only [splitNl]
    split
    · simp
    · cases h : splitNl s with
      | nil => exact absurd h ih
      | cons l ls => simp

theorem splitNl_cons_nl (s : List Char) :
    splitNl ('\n' :: s) = [] :: splitNl s := by
  simp [splitNl]

theorem splitNl_cons_of_ne (c : Char) (s : List Char) (h : c ≠ '\n') :
    splitNl (c :: s) =
      (c :: (splitNl s).headD []) :: (splitNl s).tail := by
  simp only [splitNl, if_neg h]
  cases hs : splitNl s with
  | nil => exact absurd hs (splitNl_ne_nil s)
  | cons l ls => simp

theorem joinNl_splitNl (s : List Char) : joinNl (splitNl s) = s := by
  induction s with
  | nil => simp [splitNl, joinNl]
  | cons c s ih =>
    by_cases h : c = '\n'
    · subst h
      simp only [splitNl_cons_nl]
      cases hs : splitNl s with
      | nil => exact absurd hs (splitNl_ne_nil s)
      | cons l ls =>
        rw [hs] at ih
        simpa [joinNl] using ih
    · rw [splitNl_cons_of_ne c s h]
      cases hs : splitNl s with
      | nil => exact absurd hs (splitNl_ne_nil s)
      | cons l ls =>
        rw [hs] at ih
        cases ls with
        | nil => simpa [joinNl] using ih
        | cons l2 ls2 => simpa [joinNl] using ih

theorem splitNl_append (a b : List Char) :
    splitNl (a ++ '\n' :: b) = splitNl a ++ splitNl b := by
  induction a with
  | nil => simp [splitNl]
  | cons c a ih =>
    by_cases h : c = '\n'
    · subst h
      show splitNl ('\n' :: (a ++ '\n' :: b)) = splitNl ('\n' :: a) ++ splitNl b
      simp only [splitNl_cons_nl]
      rw [ih]
      simp
    · rw [List.cons_append, splitNl_cons_of_ne c _ h, ih,
        splitNl_cons_of_ne c a h]
      cases ha : splitNl a with
      | nil => exact absurd ha (splitNl_ne_nil a)
      | cons l ls => simp

theorem splitNl_of_no_nl (s : List Char) (h : '\n' ∉ s) : splitNl s = [s] := by
  induction s with
  | nil => simp [splitNl]
  | cons c s ih =>
    have hc : c ≠ '\n' := fun hc => h (hc ▸ List.mem_cons_self c s)
    rw [splitNl_cons_of_ne c s hc, ih (fun hm => h (List.mem_cons_of_mem c hm))]
    simp

theorem splitNl_joinNl (L : List (List Char)) :
    L ≠ [] → (∀ l ∈ L, '\n' ∉ l) → splitNl (joinNl L) = L := by
  induction L with
  | nil => exact fun hne _ => absurd rfl hne
  | cons l ls ih =>
    intro _ h
    cases ls with
    | nil =>
      simpa [joinNl] using splitNl_of_no_nl l (h l (List.mem_cons_self l []))
    | cons l2 ls2 =>
      have hj : joinNl (l :: l2 :: ls2) = l ++ '\n' :: joinNl (l2 :: ls2) := rfl
      rw [hj, splitNl_append, splitNl_of_no_nl l (h l (by simp)),
        ih (by simp) (fun x hx => h x (List.mem_cons_of_mem l hx))]
      simp

theorem mem_splitNl_no_nl (s : List Char) :
    ∀ l ∈ splitNl s, '\n' ∉ l := by
  induction s with
  | nil =>
    intro l hl
    simp only [splitNl, List.mem_singleton] at hl
    subst hl; simp
  | cons c s ih =>
    intro l hl
    by_cases hc : c = '\n'
    · subst hc
      simp only [splitNl_cons_nl, List.mem_cons] at hl
      rcases hl with h | h
      · subst h; simp
      · exact ih l h
    · rw [splitNl_cons_of_ne c s hc] at hl
      cases hs : splitNl s with
      | nil => exact absurd hs (splitNl_ne_nil s)
      | cons hd tl =>
        rw [hs] at hl ih
        simp only [List.headD_cons, List.tail_cons, List.mem_cons] at hl
        rcases hl with h | h
        · subst h
          intro hm
          rcases List.mem_cons.mp hm with h1 | h1
          · exact hc h1.symm
          · exact ih hd (List.mem_cons_self hd tl) h1
        · exact ih l (List.mem_cons_of_mem hd h)

theorem dropWhile_append_of_ne_nil {p : Char → Bool} (u v : List Char)
    (h : u.dropWhile p ≠ []) :
    (u ++ v).dropWhile p = u.dropWhile p ++ v := by
  induction u with
  | nil => exact absurd rfl h
  | cons c u ih =>
    by_cases hc : p c
    · have h' : u.dropWhile p ≠ [] := by
        simpa [List.dropWhile_cons, hc] using h
      simp only [List.cons_append, List.dropWhile_cons, hc, if_pos]
      exact ih h'
    · simp [List.dropWhile_cons, hc]

theorem dropTrailWs_append (a b : List Char) (h : dropTrailWs b ≠ []) :
    dropTrailWs (a ++ b) = a ++ dropTrailWs b := by
  have hb : b.reverse.dropWhile jsWs ≠ [] := by
    intro hnil
    apply h
    unfold dropTrailWs
    rw [hnil]
    rfl
  unfold dropTrailWs
  rw [List.reverse_append, dropWhile_append_of_ne_nil _ _ hb,
    List.reverse_append, List.reverse_reverse]

theorem dropLeadWs_cons_of_neg (c : Char) (s : List Char)
    (h : jsWs c = false) : dropLeadWs (c :: s) = c :: s := by
  unfold dropLeadWs
  exact List.dropWhile_cons_of_neg (by simp [h])

theorem dropWhile_ws_append (W r : List Char)
    (h : ∀ c ∈ W, jsWs c = true) :
    (W ++ r).dropWhile jsWs = r.dropWhile jsWs := by
  induction W with
  | nil => rfl
  | cons c W ih =>
    rw [List.cons_append, List.dropWhile_cons_of_pos (h c (by simp))]
    exact ih (fun x hx => h x (List.mem_cons_of_mem c hx))

theorem head_dropWhile_false {p : Char → Bool} (s r : List Char) (c : Char)
    (h : s.dropWhile p = c :: r) : p c = false := by
  induction s with
  | nil => simp [List.dropWhile] at h
  | cons a s ih =>
    by_cases ha : p a
    · rw [List.dropWhile_cons_of_pos ha] at h
      exact ih h
    · rw [List.dropWhile_cons_of_neg ha] at h
      cases h
      simpa using ha

/-! ### Lemmas about the sanitization scan -/

theorem sanitizeF_nil (n : Nat) (b : Bool) : sanitizeF n b [] = [] := by
  cases n <;> rfl

theorem starMatch_elim (s : List Char) (h : starMatch s = true) :
    ∃ d t, s.dropWhile jsWs = '*' :: d :: t ∧ jsWs d = true ∧
      starSep s = d ∧ starTail s = t := by
  unfold starMatch at h
  unfold starSep starTail
  cases hd : s.dropWhile jsWs with
  | nil => rw [hd] at h; simp at h
  | cons a u =>
    cases u with
    | nil => rw [hd] at h; simp at h
    | cons d t =>
      rw [hd] at h
      simp only [Bool.and_eq_true, decide_eq_true_eq] at h
      obtain ⟨ha, hws⟩ := h
      subst ha
      exact ⟨d, t, rfl, hws, rfl, rfl⟩

theorem starTail_length (s : List Char) (h : starMatch s = true) :
    (starTail s).length + 2 ≤ s.length := by
  obtain ⟨d, t, hd, _, _, ht⟩ := starMatch_elim s h
  have hlen : (s.dropWhile jsWs).length ≤ s.length :=
    (List.dropWhile_suffix jsWs).sublist.length_le
  rw [hd] at hlen
  rw [ht]
  simpa using hlen

theorem sanitizeF_fuel : ∀ n m : Nat, ∀ b : Bool, ∀ s : List Char,
    s.length ≤ n → s.length ≤ m → sanitizeF n b s = sanitizeF m b s := by
  intro n
  induction n with
  | zero =>
    intro m b s hn _
    rw [List.length_eq_zero.mp (Nat.le_zero.mp hn)]
    rw [sanitizeF_nil, sanitizeF_nil]
  | succ n ih =>
    intro m b s hn hm
    cases s with
    | nil => rw [sanitizeF_nil, sanitizeF_nil]
    | cons c s' =>
      cases m with
      | zero => simp at hm
      | succ m' =>
        show sanitizeF (n + 1) b (c :: s') = sanitizeF (m' + 1) b (c :: s')
        simp only [sanitizeF]
        by_cases hb : (b && starMatch (c :: s')) = true
        · rw [if_pos hb, if_pos hb]
          have hmatch : starMatch (c :: s') = true := by
            exact (Bool.and_eq_true _ _).mp hb |>.2
          have hlen := starTail_length (c :: s') hmatch
          simp only [List.length_cons] at hlen hn hm
          have h1 : (starTail (c :: s')).length ≤ n := by omega
          have h2 : (starTail (c :: s')).length ≤ m' := by omega
          rw [ih m' _ _ h1 h2]
        · rw [if_neg hb, if_neg hb]
          simp only [List.length_cons] at hn hm
          rw [ih m' _ s' (by omega) (by omega)]

theorem sanA_nil (b : Bool) : sanA b [] = [] := rfl

theorem sanA_match (s : List Char) (hne : s ≠ [])
    (h : starMatch s = true) :
    sanA true s =
      '-' :: ' ' :: sanA (lineTerm (starSep s)) (starTail s) := by
  cases s with
  | nil => exact absurd rfl hne
  | cons c s' =>
    show sanitizeF (s'.length + 1) true (c :: s') = _
    simp only [sanitizeF, Bool.true_and, h, if_pos]
    have hlen := starTail_length (c :: s') h
    simp only [List.length_cons] at hlen
    unfold sanA
    rw [sanitizeF_fuel s'.length (starTail (c :: s')).length _ _
      (by omega) (le_refl _)]

theorem sanA_else (b : Bool) (c : Char) (s : List Char)
    (h : b = false ∨ starMatch (c :: s) = false) :
    sanA b (c :: s) = c :: sanA (lineTerm c) s := by
  have hcond : (b && starMatch (c :: s)) = false := by
    rcases h with h | h <;> simp [h]
  show sanitizeF (s.length + 1) b (c :: s) = _
  simp only [sanitizeF, hcond, Bool.false_eq_true, if_false]
  rfl

theorem lineTerm_ws (c : Char) (h : lineTerm c = true) : jsWs c = true := by
  unfold lineTerm at h
  simp only [Bool.or_eq_true, decide_eq_true_eq] at h
  rcases h with ((h | h) | h) | h <;> subst h <;> decide

theorem sanA_noMatch (s : List Char) (h : starMatch s = false) :
    ∀ b : Bool, sanA b s = s.takeWhile jsWs ++
      (match s.dropWhile jsWs with
       | [] => []
       | r :: r' => r :: sanA (lineTerm r) r') := by
  induction s with
  | nil => intro b; rfl
  | cons c s' ih =>
    intro b
    by_cases hws : jsWs c = true
    · have hd : (c :: s').dropWhile jsWs = s'.dropWhile jsWs :=
        List.dropWhile_cons_of_pos hws
      have hsm : starMatch (c :: s') = starMatch s' := by
        unfold starMatch; rw [hd]
      have hm' : starMatch s' = false := hsm ▸ h
      rw [sanA_else b c s' (Or.inr h), ih hm' (lineTerm c),
        List.takeWhile_cons_of_pos hws, hd]
      rfl
    · have hd : (c :: s').dropWhile jsWs = c :: s' :=
        List.dropWhile_cons_of_neg (by simp [hws])
      rw [sanA_else b c s' (Or.inr h),
        List.takeWhile_cons_of_neg (by simp [hws]), hd]
      rfl

theorem starMatch_sanA (s : List Char) (b : Bool)
    (h : starMatch s = false) : starMatch (sanA b s) = false := by
  rw [sanA_noMatch s h b]
  have hall : ∀ c ∈ s.takeWhile jsWs, jsWs c = true :=
    fun c hc => List.mem_takeWhile_imp hc
  cases hd : s.dropWhile jsWs with
  | nil =>
    unfold starMatch
    rw [dropWhile_ws_append _ _ hall]
    rfl
  | cons r r' =>
    have hr : jsWs r = false := head_dropWhile_false s r' r hd
    have hlt : lineTerm r = false := by
      cases hlt : lineTerm r
      · rfl
      · exact absurd (lineTerm_ws r hlt) (by simp [hr])
    unfold starMatch
    rw [dropWhile_ws_append _ _ hall]
    show (match (r :: sanA (lineTerm r) r').dropWhile jsWs with
      | c :: d :: _ => c = '*' && jsWs d
      | _ => false) = false
    rw [List.dropWhile_cons_of_neg (by simp [hr])]
    cases r' with
    | nil => rfl
    | cons d r'' =>
      rw [hlt, sanA_else false d r'' (Or.inl rfl)]
      show (decide (r = '*') && jsWs d) = false
      unfold starMatch at h
      rw [hd] at h
      exact h

theorem sanA_idem : ∀ n : Nat, ∀ s : List Char, s.length ≤ n →
    ∀ b b' : Bool, (b' = true → b = true) →
    sanA b' (sanA b s) = sanA b s := by
  intro n
  induction n with
  | zero =>
    intro s hs b b' _
    rw [List.length_eq_zero.mp (Nat.le_zero.mp hs)]
    rfl
  | succ n ih =>
    intro s hs b b' hbb
    cases s with
    | nil => rfl
    | cons c s' =>
      simp only [List.length_cons] at hs
      by_cases hcond : b = true ∧ starMatch (c :: s') = true
      · obtain ⟨hb, hm⟩ := hcond
        subst hb
        rw [sanA_match (c :: s') (by simp) hm]
        have hdash : starMatch ('-' :: ' ' ::
            sanA (lineTerm (starSep (c :: s'))) (starTail (c :: s'))) = false := by
          unfold starMatch
          rw [List.dropWhile_cons_of_neg (by decide)]
          show (decide ('-' = '*') && _) = false
          simp
        rw [sanA_else b' '-' _ (Or.inr hdash),
          show lineTerm '-' = false from by decide,
          sanA_else false ' ' _ (Or.inl rfl),
          show lineTerm ' ' = false from by decide]
        have hlen := starTail_length (c :: s') hm
        simp only [List.length_cons] at hlen
        rw [ih (starTail (c :: s')) (by omega) _ false
          (fun hf => absurd hf (by decide))]
      · have hor : b = false ∨ starMatch (c :: s') = false := by
          cases b with
          | false => exact Or.inl rfl
          | true =>
            cases hsm : starMatch (c :: s') with
            | false => exact Or.inr rfl
            | true => exact absurd ⟨rfl, hsm⟩ hcond
        rw [sanA_else b c s' hor]
        cases b' with
        | false =>
          rw [sanA_else false c _ (Or.inl rfl)]
          rw [ih s' (by omega) (lineTerm c) (lineTerm c) (fun hh => hh)]
        | true =>
          have hb : b = true := hbb rfl
          have hm : starMatch (c :: s') = false := by
            rcases hor with hh | hh
            · rw [hb] at hh; cases hh
            · exact hh
          have hout : starMatch (c :: sanA (lineTerm c) s') = false := by
            have hsan := starMatch_sanA (c :: s') b hm
            rw [sanA_else b c s' hor] at hsan
            exact hsan
          rw [sanA_else true c _ (Or.inr hout)]
          rw [ih s' (by omega) (lineTerm c) (lineTerm c) (fun hh => hh)]

theorem sanitizeBullets_idem (s : List Char) :
    sanitizeBullets (sanitizeBullets s) = sanitizeBullets s :=
  sanA_idem s.length s (le_refl _) true true (fun hh => hh)

/-- C3: the bullet-sanitization pass of `generatePdfResume` is idempotent —
applying `replace(/^\s*\*\s/gm, '- ')` twice equals applying it once; the
line `"* Did X"` is rewritten to `"- Did X"`; the line `"**Bold**"` is left
unchanged. -/
theorem sanitize_idempotent_c3 :
    (∀ s : List Char,
      sanitizeBullets (sanitizeBullets s) = sanitizeBullets s) ∧
    sanitizeBullets ("* Did X".toList) = "- Did X".toList ∧
    sanitizeBullets ("**Bold**".toList) = "**Bold**".toList :=
  ⟨sanitizeBullets_idem, by decide, by decide⟩

/-- C10: the sanitization pass replaces the whole matched prefix of a bullet
line, leading whitespace included: a string of whitespace followed by `"* "`
is rewritten to start with `"- "` at column 0, the indentation being
consumed by the `\s*` of the pattern, and scanning continues after the
match in mid-line state. -/
theorem sanitize_dedents_c10 (ws rest : List Char)
    (h : ∀ c ∈ ws, jsWs c = true) :
    sanitizeBullets (ws ++ '*' :: ' ' :: rest) = '-' :: ' ' :: sanA false rest := by
  have hd : (ws ++ '*' :: ' ' :: rest).dropWhile jsWs = '*' :: ' ' :: rest := by
    rw [dropWhile_ws_append _ _ h]
    exact List.dropWhile_cons_of_neg (by decide)
  have hm : starMatch (ws ++ '*' :: ' ' :: rest) = true := by
    unfold starMatch
    rw [hd]
    rfl
  have hne : ws ++ '*' :: ' ' :: rest ≠ [] := by
    cases ws <;> simp
  have hsep : starSep (ws ++ '*' :: ' ' :: rest) = ' ' := by
    unfold starSep
    rw [hd]
  have htail : starTail (ws ++ '*' :: ' ' :: rest) = rest := by
    unfold starTail
    rw [hd]
    rfl
  have hmain : sanA true (ws ++ '*' :: ' ' :: rest) =
      '-' :: ' ' :: sanA false rest := by
    rw [sanA_match _ hne hm, hsep, htail,
      show lineTerm ' ' = false from by decide]
  exact hmain

/-- Witness for C10 at a concrete tab-indented bullet line. -/
theorem sanitize_dedents_c10_witness :
    sanitizeBullets (['\t'] ++ '*' :: ' ' :: "x".toList) =
      '-' :: ' ' :: sanA false ("x".toList) :=
  sanitize_dedents_c10 ['\t'] ("x".toList) (by decide)

/-! ### Lemmas about the structural split -/

theorem joinNl_append_of_ne (C : List (List Char)) (hC : C ≠ []) :
    ∀ A : List (List Char), A ≠ [] →
      joinNl (A ++ C) = joinNl A ++ '\n' :: joinNl C := by
  intro A
  induction A with
  | nil => intro h; exact absurd rfl h
  | cons a A ih =>
    intro _
    cases A with
    | nil =>
      cases C with
      | nil => exact absurd rfl hC
      | cons c cs => rfl
    | cons a2 A2 =>
      show joinNl (a :: ((a2 :: A2) ++ C)) =
        joinNl (a :: a2 :: A2) ++ '\n' :: joinNl C
      have h1 : joinNl (a :: ((a2 :: A2) ++ C)) =
          a ++ '\n' :: joinNl ((a2 :: A2) ++ C) := rfl
      rw [h1, ih (by simp)]
      show a ++ '\n' :: (joinNl (a2 :: A2) ++ '\n' :: joinNl C) =
        (a ++ '\n' :: joinNl (a2 :: A2)) ++ '\n' :: joinNl C
      simp

theorem chunkSecs_cons (b : Bool) (cur : List Char) (c : Char) (s : List Char) :
    chunkSecs b cur (c :: s) =
      if b && headAnchor (c :: s) then cur :: chunkSecs (lineTerm c) [c] s
      else chunkSecs (lineTerm c) (cur ++ [c]) s := rfl

theorem chunkSecs_cons_pos (b : Bool) (cur : List Char) (c : Char) (s : List Char)
    (h : (b && headAnchor (c :: s)) = true) :
    chunkSecs b cur (c :: s) = cur :: chunkSecs (lineTerm c) [c] s := by
  rw [chunkSecs_cons, if_pos h]

theorem chunkSecs_cons_neg (b : Bool) (cur : List Char) (c : Char) (s : List Char)
    (h : (b && headAnchor (c :: s)) = false) :
    chunkSecs b cur (c :: s) = chunkSecs (lineTerm c) (cur ++ [c]) s := by
  rw [chunkSecs_cons, if_neg (by rw [h]; simp)]

theorem chunkSecs_no_anchor (s : List Char) :
    ∀ (b : Bool) (cur : List Char), hasNoAnchor b s = true →
      chunkSecs b cur s = [cur ++ s] := by
  induction s with
  | nil => intro b cur _; simp [chunkSecs]
  | cons c s ih =>
    intro b cur h
    simp only [hasNoAnchor, Bool.and_eq_true] at h
    obtain ⟨h1, h2⟩ := h
    have h1' : (b && headAnchor (c :: s)) = false := by
      cases hcond : (b && headAnchor (c :: s)) with
      | false => rfl
      | true => rw [hcond] at h1; exact absurd h1 (by decide)
    rw [chunkSecs_cons_neg b cur c s h1', ih (lineTerm c) (cur ++ [c]) h2]
    simp

theorem chunkSecs_flat (B : List Char) (hB : hasNoAnchor true B = true) :
    ∀ M : List Char, (∀ c ∈ M, lineTerm c = false) →
    ∀ cur : List Char,
      chunkSecs false cur (M ++ '\n' :: B) = [cur ++ (M ++ '\n' :: B)] := by
  intro M
  induction M with
  | nil =>
    intro _ cur
    show chunkSecs false cur ('\n' :: B) = [cur ++ ([] ++ '\n' :: B)]
    rw [chunkSecs_cons_neg false cur '\n' B (by rw [Bool.false_and])]
    rw [show lineTerm '\n' = true from by decide]
    rw [chunkSecs_no_anchor B true (cur ++ ['\n']) hB]
    simp
  | cons m M ih =>
    intro hM cur
    show chunkSecs false cur (m :: (M ++ '\n' :: B)) =
      [cur ++ (m :: (M ++ '\n' :: B))]
    rw [chunkSecs_cons_neg false cur m (M ++ '\n' :: B) (by rw [Bool.false_and])]
    rw [hM m (List.mem_cons_self m M)]
    rw [ih (fun c hc => hM c (List.mem_cons_of_mem m hc)) (cur ++ [m])]
    simp

theorem chunkSecs_after_hash (T B : List Char) (hT : ∀ c ∈ T, lineTerm c = false)
    (hB : hasNoAnchor true B = true) (cur : List Char) :
    chunkSecs false cur ('#' :: ' ' :: (T ++ '\n' :: B)) =
      [cur ++ '#' :: ' ' :: (T ++ '\n' :: B)] := by
  rw [chunkSecs_cons_neg false cur '#' (' ' :: (T ++ '\n' :: B))
    (by rw [Bool.false_and])]
  rw [show lineTerm '#' = false from by decide]
  rw [chunkSecs_cons_neg false (cur ++ ['#']) ' ' (T ++ '\n' :: B)
    (by rw [Bool.false_and])]
  rw [show lineTerm ' ' = false from by decide]
  rw [chunkSecs_flat B hB T hT ((cur ++ ['#']) ++ [' '])]
  simp

theorem chunkSecs_hdpart_false (T B : List Char) (hT : ∀ c ∈ T, lineTerm c = false)
    (hB : hasNoAnchor true B = true) (cur : List Char) :
    chunkSecs false cur ('#' :: '#' :: ' ' :: (T ++ '\n' :: B)) =
      [cur ++ '#' :: '#' :: ' ' :: (T ++ '\n' :: B)] := by
  rw [chunkSecs_cons_neg false cur '#' ('#' :: ' ' :: (T ++ '\n' :: B))
    (by rw [Bool.false_and])]
  rw [show lineTerm '#' = false from by decide]
  rw [chunkSecs_after_hash T B hT hB (cur ++ ['#'])]
  simp

theorem chunkSecs_hdpart_true (T B : List Char) (hT : ∀ c ∈ T, lineTerm c = false)
    (hB : hasNoAnchor true B = true) (cur : List Char) :
    chunkSecs true cur ('#' :: '#' :: ' ' :: (T ++ '\n' :: B)) =
      [cur, '#' :: '#' :: ' ' :: (T ++ '\n' :: B)] := by
  rw [chunkSecs_cons_pos true cur '#' ('#' :: ' ' :: (T ++ '\n' :: B))
    (by rw [Bool.true_and]; rfl)]
  rw [show lineTerm '#' = false from by decide]
  rw [chunkSecs_after_hash T B hT hB ['#']]
  rfl

theorem chunkSecs_last (T B : List Char) (hT : ∀ c ∈ T, lineTerm c = false)
    (hB : hasNoAnchor true B = true) :
    ∀ (X : List Char) (b : Bool) (cur : List Char),
    ∃ G, chunkSecs b cur (X ++ '\n' :: '#' :: '#' :: ' ' :: (T ++ '\n' :: B)) =
      G ++ ['#' :: '#' :: ' ' :: (T ++ '\n' :: B)] := by
  intro X
  induction X with
  | nil =>
    intro b cur
    show ∃ G, chunkSecs b cur ('\n' :: '#' :: '#' :: ' ' :: (T ++ '\n' :: B)) =
      G ++ ['#' :: '#' :: ' ' :: (T ++ '\n' :: B)]
    rw [chunkSecs_cons_neg b cur '\n' ('#' :: '#' :: ' ' :: (T ++ '\n' :: B))
      (by rw [show headAnchor ('\n' :: '#' :: '#' :: ' ' :: (T ++ '\n' :: B)) =
        false from rfl, Bool.and_false])]
    rw [show lineTerm '\n' = true from by decide]
    rw [chunkSecs_hdpart_true T B hT hB (cur ++ ['\n'])]
    exact ⟨[cur ++ ['\n']], rfl⟩
  | cons x X ih =>
    intro b cur
    show ∃ G, chunkSecs b cur
        (x :: (X ++ '\n' :: '#' :: '#' :: ' ' :: (T ++ '\n' :: B))) =
      G ++ ['#' :: '#' :: ' ' :: (T ++ '\n' :: B)]
    cases hx : (b && headAnchor
        (x :: (X ++ '\n' :: '#' :: '#' :: ' ' :: (T ++ '\n' :: B)))) with
    | true =>
      rw [chunkSecs_cons_pos b cur x _ hx]
      obtain ⟨G, hG⟩ := ih (lineTerm x) [x]
      exact ⟨cur :: G, by rw [hG]; simp⟩
    | false =>
      rw [chunkSecs_cons_neg b cur x _ hx]
      exact ih (lineTerm x) (cur ++ [x])

theorem trimJS_ne_nil_of_trail (B : List Char) (h : trimJS B ≠ []) :
    dropTrailWs B ≠ [] := by
  intro hnil
  apply h
  unfold trimJS
  rw [hnil]
  rfl

theorem sectionOfChunk_heading (T B : List Char)
    (hT : '\n' ∉ T) (hB : trimJS B ≠ []) :
    sectionOfChunk ('#' :: '#' :: ' ' :: (T ++ '\n' :: B)) =
      some (toLowerJS (trimJS T), dropTrailWs B) := by
  have htrail : dropTrailWs B ≠ [] := trimJS_ne_nil_of_trail B hB
  have hchunk : ('#' :: '#' :: ' ' :: (T ++ '\n' :: B)) =
      (('#' :: '#' :: ' ' :: T) ++ ['\n']) ++ B := by simp
  have htrim : trimJS ('#' :: '#' :: ' ' :: (T ++ '\n' :: B)) =
      '#' :: '#' :: ' ' :: (T ++ '\n' :: dropTrailWs B) := by
    unfold trimJS
    rw [hchunk, dropTrailWs_append _ _ htrail]
    rw [show (('#' :: '#' :: ' ' :: T) ++ ['\n']) ++ dropTrailWs B =
      '#' :: '#' :: ' ' :: (T ++ '\n' :: dropTrailWs B) from by simp]
    exact dropLeadWs_cons_of_neg _ _ (by decide)
  have hlines : splitNl ('#' :: '#' :: ' ' :: (T ++ '\n' :: dropTrailWs B)) =
      ('#' :: '#' :: ' ' :: T) :: splitNl (dropTrailWs B) := by
    rw [show '#' :: '#' :: ' ' :: (T ++ '\n' :: dropTrailWs B) =
      ('#' :: '#' :: ' ' :: T) ++ '\n' :: dropTrailWs B from by simp]
    rw [splitNl_append]
    rw [splitNl_of_no_nl ('#' :: '#' :: ' ' :: T) (by
      intro hmem
      rcases List.mem_cons.mp hmem with h1 | h1
      · exact absurd h1.symm (by decide)
      · rcases List.mem_cons.mp h1 with h2 | h2
        · exact absurd h2.symm (by decide)
        · rcases List.mem_cons.mp h2 with h3 | h3
          · exact absurd h3.symm (by decide)
          · exact hT h3)]
    rfl
  unfold sectionOfChunk
  rw [htrim]
  rw [if_neg (by simp)]
  rw [hlines]
  simp only [List.headD_cons, List.drop_succ_cons, List.drop_zero]
  rw [joinNl_splitNl]

theorem sectionsGet_append_last (S : List (List Char × List Char))
    (k v : List Char) : sectionsGet (S ++ [(k, v)]) k = some v := by
  unfold sectionsGet
  rw [List.reverse_append]
  show ((((k, v) :: S.reverse).find? (fun p => p.1 = k)).map (fun p => p.2)) =
    some v
  rw [List.find?_cons_of_pos _ (by simp)]
  rfl

/-- The section list produced by `parseResumeStructure` when the document
ends with a heading line `"## " ++ T` (no line terminator inside `T`)
followed by a body `B` in which the multiline-anchor scan finds no further
`##`+whitespace split point: whatever comes before, the final assignment is
for that section, with key `toLowerJS (trimJS T)` and raw body
`dropTrailWs B`. -/
theorem parse_last_section (pre T B : List Char)
    (hpre : '\n' ∈ pre) (hT : ∀ c ∈ T, lineTerm c = false)
    (hB : hasNoAnchor true B = true)
    (hBne : trimJS B ≠ []) :
    ∃ S, (parseResumeStructure
        (pre ++ '\n' :: '#' :: '#' :: ' ' :: (T ++ '\n' :: B))).sections =
      S ++ [(toLowerJS (trimJS T), dropTrailWs B)] := by
  have hTn : '\n' ∉ T := fun hm => absurd (hT '\n' hm) (by decide)
  have hlines : splitNl (pre ++ '\n' :: '#' :: '#' :: ' ' :: (T ++ '\n' :: B)) =
      splitNl pre ++ splitNl ('#' :: '#' :: ' ' :: (T ++ '\n' :: B)) :=
    splitNl_append pre _
  have hprelen : 2 ≤ (splitNl pre).length := by
    obtain ⟨u, v, huv⟩ := List.append_of_mem hpre
    rw [huv, splitNl_append]
    rw [List.length_append]
    have h1 : 1 ≤ (splitNl u).length :=
      List.length_pos.mpr (splitNl_ne_nil u)
    have h2 : 1 ≤ (splitNl v).length :=
      List.length_pos.mpr (splitNl_ne_nil v)
    omega
  have hdrop : (splitNl pre ++
        splitNl ('#' :: '#' :: ' ' :: (T ++ '\n' :: B))).drop 2 =
      (splitNl pre).drop 2 ++ splitNl ('#' :: '#' :: ' ' :: (T ++ '\n' :: B)) :=
    List.drop_append_of_le_length hprelen
  have hchunks : ∃ G, chunkSecs false []
      (joinNl ((splitNl pre).drop 2 ++
        splitNl ('#' :: '#' :: ' ' :: (T ++ '\n' :: B)))) =
      G ++ ['#' :: '#' :: ' ' :: (T ++ '\n' :: B)] := by
    cases hA : (splitNl pre).drop 2 with
    | nil =>
      rw [List.nil_append, joinNl_splitNl]
      exact ⟨[], by simpa using chunkSecs_hdpart_false T B hT hB []⟩
    | cons a as =>
      rw [joinNl_append_of_ne (splitNl ('#' :: '#' :: ' ' :: (T ++ '\n' :: B)))
        (splitNl_ne_nil _) (a :: as) (List.cons_ne_nil a as), joinNl_splitNl]
      exact chunkSecs_last T B hT hB (joinNl (a :: as)) false []
  obtain ⟨G, hG⟩ := hchunks
  simp only [parseResumeStructure]
  rw [hlines, hdrop, hG, List.foldl_append]
  simp only [List.foldl_cons, List.foldl_nil]
  rw [sectionOfChunk_heading T B hTn hBne]
  exact ⟨_, rfl⟩

/-- C1 counterexample: in `"N\nC\n## Foo\n x"` the heading `"## Foo"` is
followed by the non-empty body `" x"`, which contains no line starting with
`"## "`; the parse stores the raw body `" x"` with its leading space, not
the fully trimmed `"x"` the claim asserts. -/
theorem parse_trims_lead_c1_counterexample :
    sectionsGet (parseResumeStructure ("N\nC\n## Foo\n x".toList)).sections
        ("foo".toList) = some (" x".toList) ∧
      trimJS (" x".toList) = "x".toList ∧
      some (" x".toList) ≠ some ("x".toList) := by
  refine ⟨by decide, by decide, by decide⟩

/-- C1 amended: for a document whose header occupies the first two lines
(`pre` contains a newline), followed by `"## Foo"` and a body `B` in which
the scan that tracks every JavaScript line terminator (`\n`, `\r`, U+2028,
U+2029) finds no further anchored `##`+whitespace split point, and whose
trim is non-empty, `sections["foo"]` equals `B` with only its TRAILING
whitespace removed; leading whitespace of `B` (such as blank lines after
the heading) is kept. -/
theorem parse_section_body_c1_amended (pre B : List Char)
    (hpre : '\n' ∈ pre)
    (hB : hasNoAnchor true B = true)
    (hBne : trimJS B ≠ []) :
    sectionsGet (parseResumeStructure
        (pre ++ '\n' :: '#' :: '#' :: ' ' :: ("Foo".toList ++ '\n' :: B))).sections
      ("foo".toList) = some (dropTrailWs B) := by
  obtain ⟨S, hS⟩ := parse_last_section pre ("Foo".toList) B hpre (by decide) hB hBne
  rw [show toLowerJS (trimJS ("Foo".toList)) = "foo".toList from by decide] at hS
  rw [hS]
  exact sectionsGet_append_last S _ _

/-- Witness for the amended C1 at header `"N\nC"` and body `" x"`. -/
theorem parse_section_body_c1_amended_witness :
    sectionsGet (parseResumeStructure
        (("N\nC".toList) ++ '\n' :: '#' :: '#' :: ' ' ::
          ("Foo".toList ++ '\n' :: " x".toList))).sections
      ("foo".toList) = some (dropTrailWs (" x".toList)) :=
  parse_section_body_c1_amended ("N\nC".toList) (" x".toList)
    (by decide) (by decide) (by decide)

/-- C2 counterexample: on the one-line input `"Jane"`, `parseResumeStructure`
produces a header array with a single entry, so the contact field is absent
(`none`), not the empty string; only the preview parser substitutes `""`. -/
theorem short_header_c2_counterexample :
    (parseResumeStructure ("Jane".toList)).header = ["Jane".toList] ∧
      (parseResumeStructure ("Jane".toList)).header.get? 1 = none ∧
      (parseMarkdownForPreview ("Jane".toList)).headerContact = [] := by
  refine ⟨by decide, by decide, by decide⟩

/-- C2 amended: for every input, the preview parser takes line 0 as
`headerName` and line 1 as `headerContact`, substituting the empty string
for a missing line (and never throwing, being total), while
`parseResumeStructure` stores `lines.slice(0, 2)`, a list that simply lacks
the missing entries on short input. -/
theorem header_fields_c2_amended (markdown : List Char) :
    (parseMarkdownForPreview markdown).headerName = (splitNl markdown).headD [] ∧
    (parseMarkdownForPreview markdown).headerContact =
      (splitNl markdown).getD 1 [] ∧
    (parseResumeStructure markdown).header = (splitNl markdown).take 2 := by
  by_cases hmd : markdown = []
  · subst hmd
    refine ⟨rfl, rfl, rfl⟩
  · refine ⟨?_, ?_, rfl⟩
    · unfold parseMarkdownForPreview
      rw [if_neg hmd]
      show jsOrEmpty ((splitNl markdown).get? 0) = (splitNl markdown).headD []
      cases hs : splitNl markdown with
      | nil => exact absurd hs (splitNl_ne_nil markdown)
      | cons l ls => rfl
    · unfold parseMarkdownForPreview
      rw [if_neg hmd]
      show jsOrEmpty ((splitNl markdown).get? 1) = (splitNl markdown).getD 1 []
      cases hs : splitNl markdown with
      | nil => exact absurd hs (splitNl_ne_nil markdown)
      | cons l ls =>
        cases ls with
        | nil => rfl
        | cons l2 ls2 => rfl

/-- C6: when a document contains two sections with the same heading text
(`T` free of line terminators, the second body introducing no anchored
`##`+whitespace split point of its own), the sequentially overwriting
assignment `sections[title] = content` makes the LAST occurrence win:
looking up the shared key yields the body of the second block (trailing
whitespace trimmed as usual). -/
theorem duplicate_heading_last_wins_c6 (pre T B1 B2 : List Char)
    (hT : ∀ c ∈ T, lineTerm c = false)
    (hB2 : hasNoAnchor true B2 = true)
    (hB2ne : trimJS B2 ≠ []) :
    sectionsGet (parseResumeStructure
        (pre ++ '\n' :: '#' :: '#' :: ' ' :: (T ++ '\n' ::
          (B1 ++ '\n' :: '#' :: '#' :: ' ' :: (T ++ '\n' :: B2))))).sections
      (toLowerJS (trimJS T)) = some (dropTrailWs B2) := by
  have hassoc : pre ++ '\n' :: '#' :: '#' :: ' ' :: (T ++ '\n' ::
        (B1 ++ '\n' :: '#' :: '#' :: ' ' :: (T ++ '\n' :: B2))) =
      (pre ++ '\n' :: '#' :: '#' :: ' ' :: (T ++ '\n' :: B1)) ++
        '\n' :: '#' :: '#' :: ' ' :: (T ++ '\n' :: B2) := by
    simp
  rw [hassoc]
  obtain ⟨S, hS⟩ := parse_last_section
    (pre ++ '\n' :: '#' :: '#' :: ' ' :: (T ++ '\n' :: B1)) T B2
    (by simp) hT hB2 hB2ne
  rw [hS]
  exact sectionsGet_append_last S _ _

/-- Witness for C6: two `"## Skills"` blocks with bodies `"A"` then `"B"`;
the lookup returns `"B"`. -/
theorem duplicate_heading_last_wins_c6_witness :
    sectionsGet (parseResumeStructure
        (("N\nC".toList) ++ '\n' :: '#' :: '#' :: ' ' :: ("Skills".toList ++ '\n' ::
          ("A".toList ++ '\n' :: '#' :: '#' :: ' ' ::
            ("Skills".toList ++ '\n' :: "B".toList))))).sections
      (toLowerJS (trimJS ("Skills".toList))) = some (dropTrailWs ("B".toList)) :=
  duplicate_heading_last_wins_c6 ("N\nC".toList) ("Skills".toList)
    ("A".toList) ("B".toList) (by decide) (by decide) (by decide)

/-- C4: within the same-line branch of the assembly loop, a separating
space is inserted if and only if the horizontal gap strictly exceeds
`0.25 × charWidth`; a gap of exactly `0.25 × charWidth` concatenates
directly, and a gap of `0.26 × charWidth` inserts a space whenever the
character width is positive. -/
theorem space_threshold_c4 (st : AsmState) (item : GlyphRun)
    (hsame : ¬ (|item.y - st.lastY| > item.height * (7/10))) :
    ((asmStep st item).cur = st.cur ++ ' ' :: item.str ↔
      item.x - st.lastXend > charWidth item * (1/4)) ∧
    (item.x - st.lastXend = charWidth item * (1/4) →
      (asmStep st item).cur = st.cur ++ item.str) ∧
    (0 < charWidth item → item.x - st.lastXend = charWidth item * (26/100) →
      (asmStep st item).cur = st.cur ++ ' ' :: item.str) := by
  simp only [asmStep]
  rw [if_neg hsame]
  by_cases hgap : item.x - st.lastXend > charWidth item * (1/4)
  · rw [if_pos hgap]
    refine ⟨⟨fun _ => hgap, fun _ => rfl⟩, ?_, fun _ _ => rfl⟩
    intro heq
    rw [heq] at hgap
    exact absurd hgap (lt_irrefl _)
  · rw [if_neg hgap]
    refine ⟨⟨?_, fun hg => absurd hg hgap⟩, fun _ => rfl, ?_⟩
    · intro heq
      exfalso
      have hlen := congrArg List.length heq
      simp [List.length_append] at hlen
    · intro hcw heq
      exfalso
      apply hgap
      rw [heq]
      exact mul_lt_mul_of_pos_left (by norm_num : (1:ℚ)/4 < 26/100) hcw

/-- Witness for C4: a run of width 1 and one character at `x = 10` following
a run ending at `x = 1` on the same baseline. -/
theorem space_threshold_c4_witness :
    ((asmStep ⟨[], "a".toList, 0, 1⟩ ⟨"b".toList, 10, 0, 1, 1⟩).cur =
        "a".toList ++ ' ' :: "b".toList ↔
      (10 : ℚ) - 1 > charWidth ⟨"b".toList, 10, 0, 1, 1⟩ * (1/4)) ∧
    ((10 : ℚ) - 1 = charWidth ⟨"b".toList, 10, 0, 1, 1⟩ * (1/4) →
      (asmStep ⟨[], "a".toList, 0, 1⟩ ⟨"b".toList, 10, 0, 1, 1⟩).cur =
        "a".toList ++ "b".toList) ∧
    (0 < charWidth ⟨"b".toList, 10, 0, 1, 1⟩ →
      (10 : ℚ) - 1 = charWidth ⟨"b".toList, 10, 0, 1, 1⟩ * (26/100) →
      (asmStep ⟨[], "a".toList, 0, 1⟩ ⟨"b".toList, 10, 0, 1, 1⟩).cur =
        "a".toList ++ ' ' :: "b".toList) :=
  space_threshold_c4 ⟨[], "a".toList, 0, 1⟩ ⟨"b".toList, 10, 0, 1, 1⟩
    (by norm_num)

/-! ### Lemmas about the glyph-run sort and line assembly -/

theorem insertRun_perm (a : GlyphRun) (l : List GlyphRun) :
    List.Perm (insertRun a l) (a :: l) := by
  induction l with
  | nil => exact List.Perm.refl _
  | cons b bs ih =>
    unfold insertRun
    by_cases hc : runCompare a b < 0
    · rw [if_pos hc]
    · rw [if_neg hc]
      exact (List.Perm.cons b ih).trans (List.Perm.swap a b bs)

theorem sortRuns_perm_aux (l : List GlyphRun) :
    ∀ acc, List.Perm (List.foldl (fun acc a => insertRun a acc) acc l)
      (l ++ acc) := by
  induction l with
  | nil => intro acc; exact List.Perm.refl _
  | cons a l ih =>
    intro acc
    show List.Perm (List.foldl _ (insertRun a acc) l) _
    refine (ih (insertRun a acc)).trans ?_
    refine (List.Perm.append_left l (insertRun_perm a acc)).trans ?_
    simp [List.perm_middle]

theorem sortRuns_perm (l : List GlyphRun) : List.Perm (sortRuns l) l := by
  have h := sortRuns_perm_aux l []
  simpa [sortRuns] using h

theorem runCompare_same_y (a b : GlyphRun) (ha : a.y = b.y) :
    runCompare a b = a.x - b.x := by
  unfold runCompare
  rw [if_neg]
  rw [ha]
  simp

theorem insertRun_sorted (y0 : ℚ) (a : GlyphRun) (l : List GlyphRun)
    (hay : a.y = y0) (hly : ∀ r ∈ l, r.y = y0)
    (hs : List.Sorted (fun p q : GlyphRun => p.x ≤ q.x) l) :
    List.Sorted (fun p q : GlyphRun => p.x ≤ q.x) (insertRun a l) := by
  induction l with
  | nil => simp [insertRun]
  | cons b bs ih =>
    have hby : b.y = y0 := hly b (by simp)
    have hcmp : runCompare a b = a.x - b.x :=
      runCompare_same_y a b (by rw [hay, hby])
    rw [List.sorted_cons] at hs
    unfold insertRun
    by_cases hc : runCompare a b < 0
    · rw [if_pos hc]
      rw [hcmp] at hc
      have hab : a.x ≤ b.x := le_of_lt (by linarith)
      rw [List.sorted_cons]
      refine ⟨?_, List.sorted_cons.mpr hs⟩
      intro r hr
      rcases List.mem_cons.mp hr with h1 | h1
      · subst h1; exact hab
      · exact le_trans hab (hs.1 r h1)
    · rw [if_neg hc]
      rw [hcmp] at hc
      have hba : b.x ≤ a.x := by linarith [not_lt.mp hc]
      rw [List.sorted_cons]
      refine ⟨?_, ih (fun r hr => hly r (List.mem_cons_of_mem b hr)) hs.2⟩
      intro r hr
      have hmem := (insertRun_perm a bs).mem_iff.mp hr
      rcases List.mem_cons.mp hmem with h1 | h1
      · subst h1; exact hba
      · exact hs.1 r h1

theorem sortRuns_sorted_aux (y0 : ℚ) :
    ∀ (l acc : List GlyphRun), (∀ r ∈ l, r.y = y0) →
    (∀ r ∈ acc, r.y = y0) →
    List.Sorted (fun p q : GlyphRun => p.x ≤ q.x) acc →
    List.Sorted (fun p q : GlyphRun => p.x ≤ q.x)
      (List.foldl (fun acc a => insertRun a acc) acc l) := by
  intro l
  induction l with
  | nil => intro acc _ _ hs; exact hs
  | cons q0 qs ih =>
    intro acc hl hacc hs
    rw [List.foldl_cons]
    have hmem : ∀ r ∈ insertRun q0 acc, r.y = y0 := by
      intro r hr
      rcases List.mem_cons.mp ((insertRun_perm q0 acc).mem_iff.mp hr) with h1 | h1
      · rw [h1]; exact hl q0 (by simp)
      · exact hacc r h1
    exact ih (insertRun q0 acc)
      (fun r hr => hl r (List.mem_cons_of_mem q0 hr))
      hmem
      (insertRun_sorted y0 q0 acc (hl q0 (by simp)) hacc hs)

theorem sortRuns_sorted (l : List GlyphRun) (y0 : ℚ)
    (hy : ∀ r ∈ l, r.y = y0) :
    List.Sorted (fun p q : GlyphRun => p.x ≤ q.x) (sortRuns l) :=
  sortRuns_sorted_aux y0 l [] hy (by simp) (by simp)

theorem asm_fold_no_break (y0 : ℚ) :
    ∀ (rs : List GlyphRun) (prev : GlyphRun) (ls : List (List Char))
      (cur : List Char),
    prev.y = y0 →
    (∀ r ∈ rs, r.y = y0 ∧ 0 ≤ r.height) →
    List.Chain' (fun a b => b.x - (a.x + a.width) ≤ charWidth b * (1/4))
      (prev :: rs) →
    (List.foldl asmStep ⟨ls, cur, prev.y, prev.x + prev.width⟩ rs).lines = ls ∧
    (List.foldl asmStep ⟨ls, cur, prev.y, prev.x + prev.width⟩ rs).cur =
      cur ++ concatRunStrs rs := by
  intro rs
  induction rs with
  | nil =>
    intro prev ls cur _ _ _
    exact ⟨rfl, by simp [concatRunStrs]⟩
  | cons r rs ih =>
    intro prev ls cur hprev hall hch
    have hry : r.y = y0 := (hall r (by simp)).1
    have hrh : (0 : ℚ) ≤ r.height := (hall r (by simp)).2
    obtain ⟨hrel, hch'⟩ := List.chain'_cons.mp hch
    have hstep : asmStep ⟨ls, cur, prev.y, prev.x + prev.width⟩ r =
        ⟨ls, cur ++ r.str, r.y, r.x + r.width⟩ := by
      simp only [asmStep]
      rw [if_neg, if_neg]
      · exact not_lt.mpr hrel
      · show ¬ |r.y - prev.y| > r.height * (7/10)
        rw [hry, hprev, sub_self, abs_zero]
        exact not_lt.mpr (mul_nonneg hrh (by norm_num))
    rw [List.foldl_cons, hstep]
    obtain ⟨h1, h2⟩ := ih r ls (cur ++ r.str) hry
      (fun q hq => hall q (List.mem_cons_of_mem r hq)) hch'
    refine ⟨h1, ?_⟩
    rw [h2]
    show (cur ++ r.str) ++ concatRunStrs rs = cur ++ concatRunStrs (r :: rs)
    rw [List.append_assoc]
    rfl

theorem dropWhile_all_neg (p : Char → Bool) (s : List Char)
    (h : ∀ c ∈ s, p c = false) : s.dropWhile p = s := by
  cases s with
  | nil => rfl
  | cons c s' => exact List.dropWhile_cons_of_neg (by simp [h c (by simp)])

theorem collapseWsA_id (s : List Char) (h : ∀ c ∈ s, jsWs c = false) :
    ∀ b, collapseWsA b s = s := by
  induction s with
  | nil => intro b; rfl
  | cons c s' ih =>
    intro b
    show collapseWsA b (c :: s') = c :: s'
    unfold collapseWsA
    rw [h c (by simp)]
    simp only [Bool.false_eq_true, if_false]
    rw [ih (fun x hx => h x (List.mem_cons_of_mem c hx)) false]

theorem trimJS_id (s : List Char) (h : ∀ c ∈ s, jsWs c = false) :
    trimJS s = s := by
  unfold trimJS dropTrailWs dropLeadWs
  rw [dropWhile_all_neg jsWs s.reverse
    (fun c hc => h c (List.mem_reverse.mp hc)), List.reverse_reverse,
    dropWhile_all_neg jsWs s h]

theorem cleanLine_id (s : List Char) (h : ∀ c ∈ s, jsWs c = false) :
    cleanLine s = s := by
  unfold cleanLine
  rw [collapseWsA_id s h false, trimJS_id s h]

theorem concatRunStrs_mem (rs : List GlyphRun) (c : Char)
    (hc : c ∈ concatRunStrs rs) : ∃ r ∈ rs, c ∈ r.str := by
  induction rs with
  | nil => simp [concatRunStrs] at hc
  | cons r rs ih =>
    unfold concatRunStrs at hc
    rcases List.mem_append.mp hc with h1 | h1
    · exact ⟨r, by simp, h1⟩
    · obtain ⟨q, hq, hcq⟩ := ih h1
      exact ⟨q, List.mem_cons_of_mem r hq, hcq⟩

theorem sortRuns_eq_of_perm (items items' : List GlyphRun) (y0 : ℚ)
    (hperm : List.Perm items' items)
    (hy : ∀ r ∈ items, r.y = y0)
    (hx : List.Pairwise (fun a b : GlyphRun => a.x ≠ b.x) items) :
    sortRuns items' = sortRuns items := by
  have hy' : ∀ r ∈ items', r.y = y0 := fun r hr => hy r (hperm.mem_iff.mp hr)
  have hp1 : List.Perm (sortRuns items') items :=
    (sortRuns_perm items').trans hperm
  have hp2 : List.Perm (sortRuns items) items := sortRuns_perm items
  have hx1 : List.Pairwise (fun a b : GlyphRun => a.x ≠ b.x)
      (sortRuns items') := (List.Perm.pairwise_iff (fun hne => Ne.symm hne) hp1).mpr hx
  have hx2 : List.Pairwise (fun a b : GlyphRun => a.x ≠ b.x)
      (sortRuns items) := (List.Perm.pairwise_iff (fun hne => Ne.symm hne) hp2).mpr hx
  have hstrict1 : List.Sorted (fun a b : GlyphRun => a.x < b.x)
      (sortRuns items') :=
    ((sortRuns_sorted items' y0 hy').and hx1).imp
      (fun hab => lt_of_le_of_ne hab.1 hab.2)
  have hstrict2 : List.Sorted (fun a b : GlyphRun => a.x < b.x)
      (sortRuns items) :=
    ((sortRuns_sorted items y0 hy).and hx2).imp
      (fun hab => lt_of_le_of_ne hab.1 hab.2)
  haveI : IsAntisymm GlyphRun (fun a b => a.x < b.x) :=
    ⟨fun a b h1 h2 => absurd (lt_trans h1 h2) (lt_irrefl _)⟩
  exact List.eq_of_perm_of_sorted (hp1.trans hp2.symm) hstrict1 hstrict2

/-- C5 counterexample: two runs on the same baseline (`y = 0`), `"a"` at
`x = 0` and `"b"` at `x = 10`, both of width 1; the assembled line is
`"a b"` because the gap `9` exceeds `0.25 × charWidth = 0.25`, so the text
is NOT the plain concatenation `"ab"` in ascending-x order. -/
theorem line_order_c5_counterexample :
    extractPageText [⟨"a".toList, 0, 0, 1, 1⟩, ⟨"b".toList, 10, 0, 1, 1⟩] =
      "a b".toList ∧
    concatRunStrs (sortRuns
      [⟨"a".toList, 0, 0, 1, 1⟩, ⟨"b".toList, 10, 0, 1, 1⟩]) = "ab".toList ∧
    "a b".toList ≠ "ab".toList := by
  refine ⟨?_, ?_, by decide⟩
  · norm_num [extractPageText, sortRuns, insertRun, runCompare, assembleLines,
      asmStep, charWidth, cleanLine, collapseWsA, joinNl]
    decide
  · norm_num [concatRunStrs, sortRuns, insertRun, runCompare]

/-- C5 amended: for glyph runs sharing one baseline exactly, with
non-negative heights, pairwise distinct x positions, whitespace-free
strings, and consecutive gaps (in ascending-x order) not exceeding
`0.25 × charWidth` (so that no separating space is inserted), the page text
equals the plain concatenation of the runs' strings in ascending-x order —
for every permutation of the input array.  The first two conjuncts witness
that `sortRuns items` IS the ascending-x ordering of the runs. -/
theorem line_assembly_c5_amended (items items' : List GlyphRun) (y0 : ℚ)
    (hperm : List.Perm items' items)
    (hy : ∀ r ∈ items, r.y = y0)
    (hh : ∀ r ∈ items, (0 : ℚ) ≤ r.height)
    (hws : ∀ r ∈ items, ∀ c ∈ r.str, jsWs c = false)
    (hx : List.Pairwise (fun a b : GlyphRun => a.x ≠ b.x) items)
    (hgap : List.Chain' (fun a b => b.x - (a.x + a.width) ≤ charWidth b * (1/4))
      (sortRuns items)) :
    List.Sorted (fun a b : GlyphRun => a.x ≤ b.x) (sortRuns items) ∧
    List.Perm (sortRuns items) items ∧
    extractPageText items' = concatRunStrs (sortRuns items) := by
  refine ⟨sortRuns_sorted items y0 hy, sortRuns_perm items, ?_⟩
  have hsort : sortRuns items' = sortRuns items :=
    sortRuns_eq_of_perm items items' y0 hperm hy hx
  by_cases hni : items' = []
  · subst hni
    have hitems : items = [] := hperm.symm.eq_nil
    subst hitems
    rfl
  · unfold extractPageText
    rw [if_neg hni, hsort]
    have hwsall : ∀ c ∈ concatRunStrs (sortRuns items), jsWs c = false := by
      intro c hc
      obtain ⟨r, hr, hcr⟩ := concatRunStrs_mem _ c hc
      exact hws r ((sortRuns_perm items).mem_iff.mp hr) c hcr
    cases hsr : sortRuns items with
    | nil =>
      exfalso
      apply hni
      have hp := sortRuns_perm items
      rw [hsr] at hp
      have hitems : items = [] := hp.symm.eq_nil
      rw [hitems] at hperm
      exact hperm.eq_nil
    | cons r0 rest =>
      have hmem : ∀ r ∈ rest, r.y = y0 ∧ (0 : ℚ) ≤ r.height := by
        intro r hr
        have hri : r ∈ items := (sortRuns_perm items).mem_iff.mp
          (by rw [hsr]; exact List.mem_cons_of_mem r0 hr)
        exact ⟨hy r hri, hh r hri⟩
      have hr0y : r0.y = y0 := hy r0 ((sortRuns_perm items).mem_iff.mp
        (by rw [hsr]; simp))
      rw [hsr] at hgap
      obtain ⟨h1, h2⟩ := asm_fold_no_break y0 rest r0 [] r0.str hr0y hmem hgap
      have hasm : assembleLines (r0 :: rest) = [r0.str ++ concatRunStrs rest] := by
        show (List.foldl asmStep
            ⟨[], r0.str, r0.y, r0.x + r0.width⟩ rest).lines ++
          [(List.foldl asmStep
            ⟨[], r0.str, r0.y, r0.x + r0.width⟩ rest).cur] = _
        rw [h1, h2]
        rfl
      rw [hasm]
      show joinNl [cleanLine (r0.str ++ concatRunStrs rest)] = _
      have hjoin : r0.str ++ concatRunStrs rest = concatRunStrs (r0 :: rest) :=
        rfl
      rw [hjoin]
      rw [hsr] at hwsall
      rw [cleanLine_id _ hwsall]
      rfl

/-- Witness for the amended C5: `"b"` at `x = 1` and `"a"` at `x = 0` given
in descending-x order; the extracted text is `"ab"`. -/
theorem line_assembly_c5_amended_witness :
    List.Sorted (fun a b : GlyphRun => a.x ≤ b.x)
      (sortRuns [⟨"a".toList, 0, 0, 1, 1⟩, ⟨"b".toList, 1, 0, 1, 1⟩]) ∧
    List.Perm
      (sortRuns [⟨"a".toList, 0, 0, 1, 1⟩, ⟨"b".toList, 1, 0, 1, 1⟩])
      [⟨"a".toList, 0, 0, 1, 1⟩, ⟨"b".toList, 1, 0, 1, 1⟩] ∧
    extractPageText [⟨"b".toList, 1, 0, 1, 1⟩, ⟨"a".toList, 0, 0, 1, 1⟩] =
      concatRunStrs
        (sortRuns [⟨"a".toList, 0, 0, 1, 1⟩, ⟨"b".toList, 1, 0, 1, 1⟩]) :=
  line_assembly_c5_amended
    [⟨"a".toList, 0, 0, 1, 1⟩, ⟨"b".toList, 1, 0, 1, 1⟩]
    [⟨"b".toList, 1, 0, 1, 1⟩, ⟨"a".toList, 0, 0, 1, 1⟩] 0
    (List.Perm.swap _ _ _)
    (by intro r hr; rcases List.mem_cons.mp hr with h | h
        · rw [h]
        · rcases List.mem_cons.mp h with h2 | h2
          · rw [h2]
          · simp at h2)
    (by intro r hr; rcases List.mem_cons.mp hr with h | h
        · rw [h]; norm_num
        · rcases List.mem_cons.mp h with h2 | h2
          · rw [h2]; norm_num
          · simp at h2)
    (by intro r hr; rcases List.mem_cons.mp hr with h | h
        · rw [h]; decide
        · rcases List.mem_cons.mp h with h2 | h2
          · rw [h2]; decide
          · simp at h2)
    (by norm_num [List.pairwise_cons])
    (by norm_num [sortRuns, insertRun, runCompare, charWidth,
        List.chain'_cons])

/-! ### Lemmas about the template renderers -/

theorem except_bind_congr {A B : Type} {x : Except Err A}
    {f g : A → Except Err B} (h : ∀ a, f a = g a) : x >>= f = x >>= g := by
  cases x with
  | error e => rfl
  | ok a => show f a = g a; exact h a

theorem find?_filter_subsume {A : Type} (p q : A → Bool) (l : List A)
    (h : ∀ x, q x = true → p x = true) :
    (l.filter p).find? q = l.find? q := by
  induction l with
  | nil => rfl
  | cons a l ih =>
    cases hp : p a with
    | true =>
      rw [List.filter_cons_of_pos hp]
      cases hq : q a with
      | true => rw [List.find?_cons_of_pos _ hq, List.find?_cons_of_pos _ hq]
      | false => rw [List.find?_cons_of_neg _ (by simp [hq]),
          List.find?_cons_of_neg _ (by simp [hq]), ih]
    | false =>
      rw [List.filter_cons_of_neg (by simp [hp])]
      have hq : q a = false := by
        cases hqa : q a with
        | false => rfl
        | true => rw [h a hqa] at hp; cases hp
      rw [List.find?_cons_of_neg _ (by simp [hq]), ih]

theorem sectionsGet_removeSection (secs : List (List Char × List Char))
    (key k : List Char) (hne : k ≠ key) :
    sectionsGet (removeSection key secs) k = sectionsGet secs k := by
  unfold sectionsGet removeSection
  rw [← List.filter_reverse]
  rw [find?_filter_subsume _ _ secs.reverse (fun x hx => by
    simp only [decide_eq_true_eq] at hx
    simp only [hx]
    simp [hne])]

theorem truthySection_removeSection (secs : List (List Char × List Char))
    (key k : List Char) (hne : k ≠ key) :
    truthySection (removeSection key secs) k = truthySection secs k := by
  unfold truthySection
  rw [sectionsGet_removeSection secs key k hne]

theorem foldlM_sections_congr (f g : RState → List Char → Except Err RState)
    (order : List (List Char)) (h : ∀ k ∈ order, ∀ st, f st k = g st k) :
    ∀ init, List.foldlM f init order = List.foldlM g init order := by
  induction order with
  | nil => intro init; rfl
  | cons a l ih =>
    intro init
    rw [List.foldlM_cons, List.foldlM_cons, h a (by simp)]
    exact except_bind_congr
      (fun st => ih (fun k hk st' => h k (List.mem_cons_of_mem a hk) st') st)

theorem classicSection_removeSection (lexer : Lexer) (wf : WidthFn)
    (secs : List (List Char × List Char)) (key k : List Char)
    (hne : k ≠ key) (st : RState) :
    classicSection lexer wf (removeSection key secs) st k =
      classicSection lexer wf secs st k := by
  unfold classicSection
  rw [truthySection_removeSection secs key k hne]

theorem professionalSection_removeSection (lexer : Lexer) (wf : WidthFn)
    (secs : List (List Char × List Char)) (key k : List Char)
    (hne : k ≠ key) (st : RState) :
    professionalSection lexer wf (removeSection key secs) st k =
      professionalSection lexer wf secs st k := by
  unfold professionalSection
  rw [truthySection_removeSection secs key k hne]

theorem technicalSection_removeSection (lexer : Lexer) (wf : WidthFn)
    (secs : List (List Char × List Char)) (key k : List Char)
    (hne : k ≠ key) (st : RState) :
    technicalSection lexer wf (removeSection key secs) st k =
      technicalSection lexer wf secs st k := by
  unfold technicalSection
  rw [truthySection_removeSection secs key k hne]

theorem modernSection_removeSection (lexer : Lexer) (wf : WidthFn)
    (secs : List (List Char × List Char)) (key k : List Char)
    (hne : k ≠ key) (st : RState) :
    modernSection lexer wf (removeSection key secs) st k =
      modernSection lexer wf secs st k := by
  unfold modernSection
  rw [truthySection_removeSection secs key k hne]

/-- C7: a document section whose key is not in a template's `sectionOrder`
is never rendered: removing it from the section mapping leaves the
template's entire draw output unchanged, for all four templates, any lexer
and any font metrics. -/
theorem unknown_section_ignored_c7 (lexer : Lexer) (wf : WidthFn)
    (tid : TemplateId) (header : List (List Char))
    (secs : List (List Char × List Char)) (key : List Char)
    (hkey : key ∉ sectionOrderOf tid) :
    renderTemplate lexer wf tid ⟨header, removeSection key secs⟩ =
      renderTemplate lexer wf tid ⟨header, secs⟩ := by
  have hne : ∀ k ∈ sectionOrderOf tid, k ≠ key :=
    fun k hk he => hkey (he ▸ hk)
  cases tid with
  | classic =>
    show renderClassicTemplate lexer wf ⟨header, removeSection key secs⟩ =
      renderClassicTemplate lexer wf ⟨header, secs⟩
    unfold renderClassicTemplate
    exact except_bind_congr (fun h0 => except_bind_congr (fun h1 =>
      foldlM_sections_congr _ _ _
        (fun k hk st =>
          classicSection_removeSection lexer wf secs key k (hne k hk) st) _))
  | professional =>
    show renderProfessionalTemplate lexer wf ⟨header, removeSection key secs⟩ =
      renderProfessionalTemplate lexer wf ⟨header, secs⟩
    unfold renderProfessionalTemplate
    exact except_bind_congr (fun h0 => except_bind_congr (fun h1 =>
      foldlM_sections_congr _ _ _
        (fun k hk st =>
          professionalSection_removeSection lexer wf secs key k (hne k hk) st) _))
  | technical =>
    show renderTechnicalTemplate lexer wf ⟨header, removeSection key secs⟩ =
      renderTechnicalTemplate lexer wf ⟨header, secs⟩
    unfold renderTechnicalTemplate
    exact except_bind_congr (fun h0 => except_bind_congr (fun h1 =>
      foldlM_sections_congr _ _ _
        (fun k hk st =>
          technicalSection_removeSection lexer wf secs key k (hne k hk) st) _))
  | modern =>
    show renderModernTemplate lexer wf ⟨header, removeSection key secs⟩ =
      renderModernTemplate lexer wf ⟨header, secs⟩
    unfold renderModernTemplate
    exact except_bind_congr (fun h0 => except_bind_congr (fun h1 =>
      foldlM_sections_congr _ _ _
        (fun k hk st =>
          modernSection_removeSection lexer wf secs key k (hne k hk) st) _))

/-- Witness for C7: a concrete document with a `"references"` section, the
classic template, the trivial lexer and unit font metrics. -/
theorem unknown_section_ignored_c7_witness :
    renderTemplate (fun _ => Except.ok []) (fun _ _ => Except.ok 1)
      TemplateId.classic
      ⟨["N".toList, "C".toList],
        removeSection ("references".toList)
          [("summary".toList, "S".toList),
           ("references".toList, "R".toList)]⟩ =
    renderTemplate (fun _ => Except.ok []) (fun _ _ => Except.ok 1)
      TemplateId.classic
      ⟨["N".toList, "C".toList],
        [("summary".toList, "S".toList),
         ("references".toList, "R".toList)]⟩ :=
  unknown_section_ignored_c7 (fun _ => Except.ok []) (fun _ _ => Except.ok 1)
    TemplateId.classic ["N".toList, "C".toList]
    [("summary".toList, "S".toList), ("references".toList, "R".toList)]
    ("references".toList) (by decide)

/-- C8: if anything inside the `try` block of `generatePdfResume` throws
(tokenizing, layout, font metrics, header access), the catch block alerts
the user and no save effect is produced — the partially drawn document is
discarded. -/
theorem error_discards_doc_c8 (lexer : Lexer) (wf : WidthFn)
    (text : List Char) (tid : TemplateId) (fn : List Char) (e : Err)
    (h : generatePdfDoc lexer wf text tid = Except.error e) :
    generatePdfResume lexer wf text tid fn = [PdfEffect.alertError] ∧
    ∀ f cmds, PdfEffect.saveFile f cmds ∉
      generatePdfResume lexer wf text tid fn := by
  unfold generatePdfResume
  rw [h]
  exact ⟨rfl, fun f cmds => by simp⟩

/-- Witness for C8: a lexer that throws on the first section body. -/
theorem error_discards_doc_c8_witness :
    generatePdfResume (fun _ => Except.error ("boom".toList))
        (fun _ _ => Except.ok 1) ("N\nC\n## Summary\nhi".toList)
        TemplateId.classic ("r.pdf".toList) = [PdfEffect.alertError] ∧
    ∀ f cmds, PdfEffect.saveFile f cmds ∉
      generatePdfResume (fun _ => Except.error ("boom".toList))
        (fun _ _ => Except.ok 1) ("N\nC\n## Summary\nhi".toList)
        TemplateId.classic ("r.pdf".toList) :=
  error_discards_doc_c8 (fun _ => Except.error ("boom".toList))
    (fun _ _ => Except.ok 1) ("N\nC\n## Summary\nhi".toList)
    TemplateId.classic ("r.pdf".toList) ("boom".toList) (by decide)

/-- C9: rendering is deterministic — the pipeline is a pure function of the
resume text, the template and the injected collaborators, so two runs on
the same inputs yield the same page count and the same per-word (x, y) draw
coordinates. -/
theorem deterministic_render_c9 (lexer : Lexer) (wf : WidthFn)
    (text : List Char) (tid : TemplateId) :
    (generatePdfDoc lexer wf text tid).map pageCountOf =
      (generatePdfDoc lexer wf text tid).map pageCountOf ∧
    (generatePdfDoc lexer wf text tid).map wordDraws =
      (generatePdfDoc lexer wf text tid).map wordDraws :=
  ⟨rfl, rfl⟩

end ResumeToolkit
